import Mathlib

/-!
# btpd `misc/subr.c`: path canonicalisation and directory provisioning

A shallow embedding of `make_abs_path`, `mkdirs` and `vaopen` from
`misc/subr.c`, followed by the properties proved about them.

C strings are lists of characters whose terminating NUL is implicit: reading
one position past the list yields NUL.  The output buffer of `make_abs_path`
is the list of its initialised cells; a write outside its capacity
(`PATH_MAX` cells), a write that would leave a gap, or a read of a cell that
was never written is undefined behaviour and is reported as `Result.undef`.
-/

namespace Btpd

/-! ## Platform constants -/

/-- Modelled from the spec: the `errno.h` code for "invalid argument"
(`InvalidArgument`); the header is not part of the sources, the value is the
Linux one. -/
def EINVAL : Nat := 22

/-- Modelled from the spec: the `errno.h` code for "path too long"
(`PathTooLong`); Linux value. -/
def ENAMETOOLONG : Nat := 36

/-- Modelled from the spec: the `errno.h` code for "no such file or
directory"; Linux value. -/
def ENOENT : Nat := 2

/-- Modelled from the spec: the `errno.h` code for "already exists"; Linux
value. -/
def EEXIST : Nat := 17

/-- Modelled from the spec: the `fcntl.h` flag carrying the create-if-missing
intent; Linux value. -/
def O_CREAT : Nat := 64

/-! ## C strings and buffers -/

/-- The string terminator. -/
def NUL : Char := Char.ofNat 0

/-- The separator. -/
def SEP : Char := '/'

/-- The dot. -/
def DOT : Char := '.'

/-- Read `s[i]` of a C string whose terminator is implicit. -/
def cget (s : List Char) (i : Nat) : Char := s.getD i NUL

/-- The C library `strlen`: the number of characters before the first NUL. -/
def strlen : List Char → Nat
  | [] => 0
  | c :: cs => if c = NUL then 0 else strlen cs + 1

/-- The C string held by a buffer: its cells up to the first NUL. -/
def cstr : List Char → List Char
  | [] => []
  | c :: cs => if c = NUL then [] else c :: cstr cs

/-- The assignment `out[i] = c` on a buffer of `cap` cells of which the first
`out.length` are initialised.  `none` is undefined behaviour. -/
def bset (cap : Nat) (out : List Char) (i : Nat) (c : Char) : Option (List Char) :=
  if i < cap ∧ i ≤ out.length then some (out.take i ++ c :: out.drop (i + 1)) else none

/-! ## `make_abs_path` -/

/-- What a call of `make_abs_path` does: return 0 with a string in `out`,
return a non-zero error code, or run into undefined behaviour. -/
inductive Result where
  | ok (out : List Char)
  | error (code : Nat)
  | undef
  deriving DecidableEq, Repr

/-- The local variables `ii`, `oi`, `lastsep` and the buffer `out`. -/
structure St where
  ii : Nat
  oi : Nat
  lastsep : Nat
  out : List Char
  deriving DecidableEq, Repr

/-- The labels of `make_abs_path`; `fin` is the label `end`. -/
inductive Label where
  | after_slash
  | one_dot
  | two_dot
  | normal
  | fin
  deriving DecidableEq, Repr

/-- The loop `while (out[oi - 1] != '/') oi--;` started at `oi`. -/
def back (out : List Char) : Nat → Option Nat
  | 0 => none
  | oi + 1 =>
    match out.get? oi with
    | none => none
    | some c => if c = SEP then some (oi + 1) else back out oi

/-- The body shared by both popping cases of `two_dot`:
`if (lastsep == 0) oi = 1; else { oi = lastsep; while ...; lastsep = oi - 1; }`. -/
def pop (s : St) : Option St :=
  if s.lastsep = 0 then some { s with oi := 1 }
  else
    match back s.out s.lastsep with
    | none => none
    | some oi => some { s with oi := oi, lastsep := oi - 1 }

/-- The labelled blocks of `make_abs_path`, one block (or one iteration of the
separator-skipping loop) per unit of fuel. -/
def run (cap : Nat) (inp : List Char) : Nat → Label → St → Result
  | 0, _, _ => Result.undef
  | n + 1, Label.after_slash, s =>
    if cget inp s.ii = SEP then
      run cap inp n Label.after_slash { s with ii := s.ii + 1 }
    else if cget inp s.ii = NUL then run cap inp n Label.fin s
    else if cget inp s.ii = DOT then
      run cap inp n Label.one_dot { s with ii := s.ii + 1 }
    else run cap inp n Label.normal s
  | n + 1, Label.one_dot, s =>
    if cget inp s.ii = NUL then run cap inp n Label.fin s
    else if cget inp s.ii = SEP then
      run cap inp n Label.after_slash { s with ii := s.ii + 1 }
    else if cget inp s.ii = DOT then
      run cap inp n Label.two_dot { s with ii := s.ii + 1 }
    else
      match bset cap s.out s.oi DOT with
      | none => Result.undef
      | some o => run cap inp n Label.normal { s with out := o, oi := s.oi + 1 }
  | n + 1, Label.two_dot, s =>
    if cget inp s.ii = NUL then
      match pop s with
      | none => Result.undef
      | some t => run cap inp n Label.fin t
    else if cget inp s.ii = SEP then
      match pop s with
      | none => Result.undef
      | some t => run cap inp n Label.after_slash { t with ii := t.ii + 1 }
    else
      match bset cap s.out s.oi DOT with
      | none => Result.undef
      | some o =>
        match bset cap o (s.oi + 1) DOT with
        | none => Result.undef
        | some o2 => run cap inp n Label.normal { s with out := o2, oi := s.oi + 2 }
  | n + 1, Label.normal, s =>
    if cget inp s.ii = NUL then run cap inp n Label.fin s
    else if cget inp s.ii = SEP then
      match bset cap s.out s.oi SEP with
      | none => Result.undef
      | some o =>
        run cap inp n Label.after_slash
          { s with out := o, lastsep := s.oi, oi := s.oi + 1, ii := s.ii + 1 }
    else
      match bset cap s.out s.oi (cget inp s.ii) with
      | none => Result.undef
      | some o => run cap inp n Label.normal { s with out := o, oi := s.oi + 1, ii := s.ii + 1 }
  | _ + 1, Label.fin, s =>
    match bset cap s.out (if s.oi = s.lastsep + 1 ∧ s.lastsep ≠ 0 then s.lastsep else s.oi) NUL with
    | none => Result.undef
    | some o => Result.ok (cstr o)

/-- Fuel that lets `run` reach the label `end` on any input: every block
either consumes an input character or is followed by one that does. -/
def fuel (inp : List Char) : Nat := 2 * inp.length + 4

/-- The function `make_abs_path(in, out)`.  `PATH_MAX` is the platform's
constant and the capacity of `out`; `getcwd` is the outcome of the call
`getcwd(out, PATH_MAX)`: the working directory, or the `errno` it fails with. -/
def make_abs_path (PATH_MAX : Nat) (getcwd : Except Nat (List Char)) (inp : List Char) : Result :=
  if cget inp 0 = NUL then Result.error EINVAL
  else if cget inp 0 = SEP then
    if strlen inp ≥ PATH_MAX then Result.error ENAMETOOLONG
    else
      match bset PATH_MAX [] 0 SEP with
      | none => Result.undef
      | some o => run PATH_MAX inp (fuel inp) Label.after_slash ⟨1, 1, 0, o⟩
  else
    match getcwd with
    | Except.error e => Result.error e
    | Except.ok cwd =>
      if strlen (cwd ++ [NUL]) + strlen inp + 1 ≥ PATH_MAX then Result.error ENAMETOOLONG
      else
        match bset PATH_MAX (cwd ++ [NUL]) (strlen (cwd ++ [NUL])) SEP with
        | none => Result.undef
        | some o =>
          run PATH_MAX inp (fuel inp) Label.after_slash
            ⟨0, strlen (cwd ++ [NUL]) + 1, strlen (cwd ++ [NUL]), o⟩

/-! ## The reference lexical normalisation -/

/-- Split a string on the separator. -/
def splitSep : List Char → List (List Char)
  | [] => [[]]
  | c :: cs =>
    if c = SEP then [] :: splitSep cs
    else
      match splitSep cs with
      | [] => [[c]]
      | s :: ss => (c :: s) :: ss

/-- The segments that count: neither empty nor equal to `.`. -/
def segments (inp : List Char) : List (List Char) :=
  (splitSep inp).filter (fun s => decide (s ≠ []) && decide (s ≠ [DOT]))

/-- One segment against the stack: `..` removes the top segment (nothing when
the stack is empty), every other segment is pushed. -/
def stackStep (st : List (List Char)) (s : List Char) : List (List Char) :=
  if s = [DOT, DOT] then st.dropLast else st ++ [s]

/-- The separator followed by the stack joined by single separators. -/
def render (st : List (List Char)) : List Char :=
  SEP :: List.intercalate [SEP] st

/-- The reference lexical normalisation of an absolute path. -/
def normalize (inp : List Char) : List Char :=
  render ((segments inp).foldl stackStep [])

/-- The stack written out with a separator after every segment, as the
buffer holds it while scanning: `/a/b/`. -/
def trail (st : List (List Char)) : List Char :=
  SEP :: (st.map (fun s => s ++ [SEP])).flatten

/-- A segment a stack can hold: non-empty, free of separators and of NUL. -/
def GoodSeg (s : List Char) : Prop := s ≠ [] ∧ SEP ∉ s ∧ NUL ∉ s

/-- What the buffer needs of a committed segment: free of separators and of
NUL.  (The empty segment is allowed: it stands for the doubled separator of
the seed when the working directory is the root.) -/
def BufSeg (s : List Char) : Prop := SEP ∉ s ∧ NUL ∉ s

/-- The buffer and cursors while the segments committed so far are `st` and
the characters `p` of the segment under way have been copied (`p = []` on
entry to `after_slash`). -/
def Inv (st : List (List Char)) (p : List Char) (s : St) : Prop :=
  ∃ junk, s.out = (trail st ++ p) ++ junk ∧ s.oi = (trail st ++ p).length ∧
    (st = [] → s.lastsep = 0) ∧ (st ≠ [] → s.lastsep + 1 = (trail st).length)

/-- What `after_slash` computes from a state holding the stack `st` when the
unread input is `rest`. -/
def SlashSpec (cap : Nat) (inp rest : List Char) : Prop :=
  ∀ (st : List (List Char)) (s : St) (n : Nat), inp.drop s.ii = rest → NUL ∉ rest →
    (∀ x ∈ st, BufSeg x) → Inv st [] s → s.oi + rest.length < cap →
    2 * rest.length + 2 ≤ n →
    run cap inp n Label.after_slash s = Result.ok (render ((segments rest).foldl stackStep st))

/-! ## The operating system, as seen by `mkdirs` and `vaopen` -/

/-- The primitives `mkdir(2)` and `open(2)` and the variable `errno`, over an
arbitrary state `σ` of the outside world.  A primitive returns its C return
value and the next state; `errno` is read off the state. -/
structure Sys (σ : Type) where
  mkdir : List Char → Nat → σ → Int × σ
  sys_open : List Char → Nat → Nat → σ → Int × σ
  errno : σ → Nat

/-- A call made during a run, with what it returned and the `errno` it left. -/
inductive Event where
  | mkdir (path : List Char) (mode : Nat) (ret : Int) (err : Nat)
  | sys_open (path : List Char) (flags : Nat) (mode : Nat) (ret : Int) (err : Nat)
  | mkdirs (path : List Char) (mode : Nat) (ret : Nat)
  deriving DecidableEq, Repr

/-- The outside world together with the calls made so far. -/
structure World (σ : Type) where
  sys : σ
  log : List Event
  deriving DecidableEq, Repr

/-- The call `mkdir(path, mode)`, recorded in the log. -/
def mkdir {σ : Type} (S : Sys σ) (path : List Char) (mode : Nat) (w : World σ) :
    Int × World σ :=
  ((S.mkdir path mode w.sys).1,
    ⟨(S.mkdir path mode w.sys).2,
      w.log ++ [Event.mkdir path mode (S.mkdir path mode w.sys).1
        (S.errno (S.mkdir path mode w.sys).2)]⟩)

/-- The call `open(path, flags, mode)`, recorded in the log. -/
def sys_open {σ : Type} (S : Sys σ) (path : List Char) (flags mode : Nat) (w : World σ) :
    Int × World σ :=
  ((S.sys_open path flags mode w.sys).1,
    ⟨(S.sys_open path flags mode w.sys).2,
      w.log ++ [Event.sys_open path flags mode (S.sys_open path flags mode w.sys).1
        (S.errno (S.sys_open path flags mode w.sys).2)]⟩)

/-- Scan for `c` from the cell with index `i` on, stopping at a NUL. -/
def strchr_from (c : Char) : List Char → Nat → Option Nat
  | [], _ => none
  | x :: xs, i => if x = c then some i else if x = NUL then none else strchr_from c xs (i + 1)

/-- The C library `strchr(s + start, c)`, as an index into `s`. -/
def strchr (s : List Char) (start : Nat) (c : Char) : Option Nat :=
  strchr_from c (s.drop start) start

/-- Scan for the last `c` before the first NUL, `acc` being the last one seen. -/
def rindex_from (c : Char) : List Char → Nat → Option Nat → Option Nat
  | [], _, acc => acc
  | x :: xs, i, acc =>
    if x = NUL then acc else rindex_from c xs (i + 1) (if x = c then some i else acc)

/-- The C library `rindex(s, c)`, as an index into `s`. -/
def rindex (s : List Char) (c : Char) : Option Nat := rindex_from c s 0 none

/-- The loop of `mkdirs` entered with `spos`, followed by the statements after
it; one iteration per unit of fuel, `none` when the fuel runs out.  The string
`path` cut at `spos` is `path.take spos`. -/
def mkdirs_loop {σ : Type} (S : Sys σ) (path : List Char) (mode : Nat) :
    Nat → Option Nat → World σ → Option (Nat × World σ)
  | _, none, w =>
    if (mkdir S path mode w).1 ≠ 0 then
      some (S.errno (mkdir S path mode w).2.sys, (mkdir S path mode w).2)
    else some (0, (mkdir S path mode w).2)
  | 0, some _, _ => none
  | n + 1, some spos, w =>
    if (mkdir S (path.take spos) mode w).1 ≠ 0 ∧
        S.errno (mkdir S (path.take spos) mode w).2.sys ≠ EEXIST then
      some (S.errno (mkdir S (path.take spos) mode w).2.sys, (mkdir S (path.take spos) mode w).2)
    else
      mkdirs_loop S path mode n (strchr path (spos + 1) SEP) (mkdir S (path.take spos) mode w).2

/-- The function `mkdirs(path, mode)`: its return value and the world it
leaves. -/
def mkdirs {σ : Type} (S : Sys σ) (path : List Char) (mode : Nat) (w : World σ) :
    Option (Nat × World σ) :=
  mkdirs_loop S path mode path.length (strchr path 1 SEP) w

/-- What `vaopen` hands back: its return value, the content of `*res`
(`none` while nothing was stored) and the world it leaves. -/
structure Opened (σ : Type) where
  ret : Nat
  res : Option Int
  world : World σ
  deriving DecidableEq, Repr

/-- The statements of `vaopen` from the label `again` on; one pass per unit of
fuel.  The pass of `mkdirs` is recorded in the log with its return value. -/
def vaopen_again {σ : Type} (S : Sys σ) (flags : Nat) (path : List Char) :
    Nat → Bool → Option Int → World σ → Option (Opened σ)
  | 0, _, _, _ => none
  | n + 1, didmkdirs, res, w =>
    if (sys_open S path flags 438 w).1 < 0 ∧
        S.errno (sys_open S path flags 438 w).2.sys = ENOENT ∧
        Nat.land flags O_CREAT ≠ 0 ∧ didmkdirs = false then
      match rindex path SEP with
      | some rs =>
        match mkdirs S (path.take rs) 511 (sys_open S path flags 438 w).2 with
        | none => none
        | some (r, w2) =>
          if r = 0 then
            vaopen_again S flags path n true res
              ⟨w2.sys, w2.log ++ [Event.mkdirs (path.take rs) 511 r]⟩
          else
            some ⟨S.errno w2.sys, res, ⟨w2.sys, w2.log ++ [Event.mkdirs (path.take rs) 511 r]⟩⟩
      | none =>
        some ⟨S.errno (sys_open S path flags 438 w).2.sys, res, (sys_open S path flags 438 w).2⟩
    else if (sys_open S path flags 438 w).1 ≥ 0 then
      some ⟨0, some (sys_open S path flags 438 w).1, (sys_open S path flags 438 w).2⟩
    else
      some ⟨S.errno (sys_open S path flags 438 w).2.sys, res, (sys_open S path flags 438 w).2⟩

/-- The function `vaopen(res, flags, fmt, ap)`, `path` being the string the
format renders to: `vsnprintf` returns its length.  The modes `0666` and
`0777` are 438 and 511. -/
def vaopen {σ : Type} (S : Sys σ) (PATH_MAX : Nat) (res : Option Int) (flags : Nat)
    (path : List Char) (w : World σ) : Option (Opened σ) :=
  if strlen path ≥ PATH_MAX then some ⟨ENAMETOOLONG, res, w⟩
  else vaopen_again S flags path 2 false res w

/-- The text before the last separator of a path, empty when there is none. -/
def parentOf (p : List Char) : List Char :=
  match rindex p SEP with
  | some i => p.take i
  | none => []

/-- A file system for examples: the state is the list of existing directories
and the current `errno`.  `mkdir` fails with `EEXIST` on an existing directory
and with `ENOENT` when the parent is missing; `open` fails with `ENOENT` when
the parent directory is missing and returns descriptor 3 otherwise. -/
def treeSys : Sys (List (List Char) × Nat) where
  mkdir := fun p _ s =>
    if p ∈ s.1 then (-1, (s.1, EEXIST))
    else if parentOf p ∈ s.1 then (0, (p :: s.1, s.2))
    else (-1, (s.1, ENOENT))
  sys_open := fun p _ _ s =>
    if parentOf p ∈ s.1 then (3, s) else (-1, (s.1, ENOENT))
  errno := fun s => s.2

/-- A segment of a canonical path: a good segment other than `.` and `..`. -/
def CanonSeg (x : List Char) : Prop := GoodSeg x ∧ x ≠ [DOT] ∧ x ≠ [DOT, DOT]

/-- A canonical absolute path: the separator followed by canonical segments
joined by single separators (the root when there is none). -/
def Canonical (c : List Char) : Prop :=
  ∃ st : List (List Char), (∀ x ∈ st, CanonSeg x) ∧ c = render st

/-- A system for examples in which nothing can be created: `mkdir` fails
with `EACCES` (13) and `open` with `ENOENT`; the state is the current
`errno`. -/
def denySys : Sys Nat where
  mkdir := fun _ _ _ => (-1, 13)
  sys_open := fun _ _ _ _ => (-1, ENOENT)
  errno := fun s => s

/-- An attempt of `mkdirs` on an internal prefix of `path` that the loop
lets pass: the creation succeeded or failed with `EEXIST`. -/
def Tolerated (path : List Char) (mode : Nat) (e : Event) : Prop :=
  ∃ i r err, e = Event.mkdir (path.take i) mode r err ∧ i < path.length ∧
    (r = 0 ∨ err = EEXIST)

/-- An attempt of `mkdirs` on an internal prefix of `path` that fails with
an error other than `EEXIST`, which `mkdirs` returns as `ret`. -/
def Aborting (path : List Char) (mode : Nat) (e : Event) (ret : Nat) : Prop :=
  ∃ i r err, e = Event.mkdir (path.take i) mode r err ∧ i < path.length ∧
    r ≠ 0 ∧ err ≠ EEXIST ∧ ret = err

/-- The creation of the full `path` after the loop of `mkdirs`, which returns
0 when it succeeds and its `errno` otherwise. -/
def Final (path : List Char) (mode : Nat) (e : Event) (ret : Nat) : Prop :=
  ∃ r err, e = Event.mkdir path mode r err ∧ ret = if r ≠ 0 then err else 0

/-- Whether an event is a call of `open`. -/
def isOpen : Event → Bool
  | Event.sys_open _ _ _ _ _ => true
  | _ => false

/-- Whether an event is a call of `mkdir`. -/
def isMkdir : Event → Bool
  | Event.mkdir _ _ _ _ => true
  | _ => false

/-- Whether an event is a pass of `mkdirs`. -/
def isMkdirs : Event → Bool
  | Event.mkdirs _ _ _ => true
  | _ => false

/-! ## The chain of directories of `mkdirs` -/

/-- The indices, from `i` on, of the cells of `l` that hold `c`; `i` is the
index of the first cell of `l`. -/
def idxs (c : Char) : List Char → Nat → List Nat
  | [], _ => []
  | x :: xs, i => if x = c then i :: idxs c xs (i + 1) else idxs c xs (i + 1)

/-- The chain of a path, in the words of the specification: `path[0..i)` for
each index `i ≥ 1` with `path[i] = '/'`, in increasing order of `i`, followed
by the full path. -/
def chain (path : List Char) : List (List Char) :=
  ((List.range' 1 (path.length - 1)).filter (fun i => decide (cget path i = SEP))).map
    (fun i => path.take i) ++ [path]

/-- The path and mode a recorded `mkdir` call was made with. -/
def callOf : Event → List Char × Nat
  | Event.mkdir p m _ _ => (p, m)
  | Event.sys_open p _ m _ _ => (p, m)
  | Event.mkdirs p m _ => (p, m)

/-- Whether a recorded `mkdir` call succeeded or reported `EEXIST`. -/
def okOrExists : Event → Prop
  | Event.mkdir _ _ r err => r = 0 ∨ err = EEXIST
  | _ => True

/-- A run of `mkdirs` over the targets `ts` (the chain of its path), told by
the calls `evs` it makes and the value `ret` it returns.  A target that is not
the last one (an internal prefix) is passed to `mkdir`; when that call fails
with an `errno` other than `EEXIST` no further call is made and `ret` is that
`errno`, otherwise (success or `EEXIST`) the run goes on with the next target.
The last target (the full path) is passed to `mkdir`, which ends the run: `ret`
is 0 when the call succeeds and its `errno` when it fails. -/
def ChainRun (mode : Nat) : List (List Char) → List Event → Nat → Prop
  | [], _, _ => False
  | [p], evs, ret => ∃ r err, evs = [Event.mkdir p mode r err] ∧ ret = if r ≠ 0 then err else 0
  | p :: q :: ts, evs, ret =>
    ∃ r err tl, evs = Event.mkdir p mode r err :: tl ∧
      ((r ≠ 0 ∧ err ≠ EEXIST) → tl = [] ∧ ret = err) ∧
      (¬ (r ≠ 0 ∧ err ≠ EEXIST) → ChainRun mode (q :: ts) tl ret)

/-! ## `vfsync` -/

/-- Modelled from the spec: the `fcntl.h` flag for read-only opening; Linux
value. -/
def O_RDONLY : Nat := 0

/-- The primitives `fsync(2)` and `close(2)` on a descriptor, over the state
of the outside world; each returns its C return value and the next state. -/
structure FdSys (σ : Type) where
  fsync : Int → σ → Int × σ
  close : Int → σ → Int × σ

/-- A call on a descriptor made by `vfsync`, with what it returned (and for
`fsync` the `errno` it left). -/
inductive FdEvent where
  | fsync (fd : Int) (ret : Int) (err : Nat)
  | close (fd : Int) (ret : Int)
  deriving DecidableEq, Repr

/-- What `vfsync` does: its return value, the world it leaves and the calls it
made on the descriptor, in order. -/
structure Synced (σ : Type) where
  ret : Nat
  world : World σ
  calls : List FdEvent
  deriving DecidableEq, Repr

/-- The function `vfsync(fmt, ...)`, `path` being the string the format
renders to.  `none` is undefined behaviour: `vaopen` returned 0 without
storing a descriptor, so `fd` is read uninitialised. -/
def vfsync {σ : Type} (S : Sys σ) (F : FdSys σ) (PATH_MAX : Nat) (path : List Char)
    (w : World σ) : Option (Synced σ) :=
  match vaopen S PATH_MAX none O_RDONLY path w with
  | none => none
  | some o =>
    if o.ret ≠ 0 then some ⟨o.ret, o.world, []⟩
    else
      match o.res with
      | none => none
      | some fd =>
        some ⟨if (F.fsync fd o.world.sys).1 < 0 then S.errno (F.fsync fd o.world.sys).2
                else o.ret,
              ⟨(F.close fd (F.fsync fd o.world.sys).2).2, o.world.log⟩,
              [FdEvent.fsync fd (F.fsync fd o.world.sys).1 (S.errno (F.fsync fd o.world.sys).2),
               FdEvent.close fd (F.close fd (F.fsync fd o.world.sys).2).1]⟩

/-- A system for examples in which every `open` returns descriptor 3; the
state is the current `errno`. -/
def openSys : Sys Nat where
  mkdir := fun _ _ s => (0, s)
  sys_open := fun _ _ _ s => (3, s)
  errno := fun s => s

/-- Descriptor primitives for examples: `fsync` succeeds and `close` fails
with `EIO` (5). -/
def closeFails : FdSys Nat where
  fsync := fun _ s => (0, s)
  close := fun _ _ => (-1, 5)

/-- Descriptor primitives for examples: `fsync` fails with `EIO` (5) and
`close` fails with `EBADF` (9). -/
def bothFail : FdSys Nat where
  fsync := fun _ _ => (-1, 5)
  close := fun _ _ => (-1, 9)

/-! ## Hexadecimal encoding -/

/-- The table `hexc` of `bin2hex`. -/
def hexc : List Char := "0123456789abcdef".toList

/-- Whether `c` is one of the characters `hex2i` and `ishex` accept. -/
def isHexChar (c : Char) : Bool :=
  (decide ('0' ≤ c) && decide (c ≤ '9')) || (decide ('a' ≤ c) && decide (c ≤ 'f'))

/-- The function `hex2i(c)`; `none` is the call of `abort()`. -/
def hex2i (c : Char) : Option Nat :=
  if '0' ≤ c ∧ c ≤ '9' then some ((c.toNat - ('0' : Char).toNat) % 256)
  else if 'a' ≤ c ∧ c ≤ 'f' then some ((10 + c.toNat - ('a' : Char).toNat) % 256)
  else none

/-- The function `ishex(str)`: 1 when every character before the terminator
is a hexadecimal digit, 0 otherwise. -/
def ishex : List Char → Nat
  | [] => 1
  | c :: cs =>
    if c = NUL then 1
    else if ¬ (('0' ≤ c ∧ c ≤ '9') ∨ ('a' ≤ c ∧ c ≤ 'f')) then 0
    else ishex cs

/-- The loop of `hex2bin` with `k` iterations left, at index `i`: the bytes
`bin[i], bin[i+1], ...` it stores; `none` when `hex2i` aborts. -/
def hex2bin_from (hex : List Char) : Nat → Nat → Option (List Nat)
  | 0, _ => some []
  | k + 1, i =>
    match hex2i (cget hex (i * 2)), hex2i (cget hex (i * 2 + 1)) with
    | some h, some l =>
      match hex2bin_from hex k (i + 1) with
      | some r => some ((Nat.lor (Nat.shiftLeft h 4) l) % 256 :: r)
      | none => none
    | _, _ => none

/-- The function `hex2bin(hex, bin, bsize)`: the bytes stored in `bin`. -/
def hex2bin (hex : List Char) (bsize : Nat) : Option (List Nat) :=
  hex2bin_from hex bsize 0

/-- The loop of `bin2hex` with `k` iterations left, at index `i`: the
characters `hex[i*2], hex[i*2+1], ...` it writes.  A byte read past the end of
`bin` is taken as 0. -/
def bin2hex_from (bin : List Nat) : Nat → Nat → List Char
  | 0, _ => []
  | k + 1, i =>
    hexc.getD (Nat.land (Nat.shiftRight (bin.getD i 0) 4) 15) NUL ::
      hexc.getD (Nat.land (bin.getD i 0) 15) NUL :: bin2hex_from bin k (i + 1)

/-- The function `bin2hex(bin, hex, bsize)`: the string left in `hex` (the
terminator written at `hex[bsize * 2]` is implicit). -/
def bin2hex (bin : List Nat) (bsize : Nat) : List Char :=
  bin2hex_from bin bsize 0

/-! ## Basic facts about strings and buffers -/

theorem sep_ne_nul : SEP ≠ NUL := by decide

theorem dot_ne_nul : DOT ≠ NUL := by decide

theorem dot_ne_sep : DOT ≠ SEP := by decide

theorem cget_of_drop_cons {inp : List Char} {i : Nat} {c : Char} {r : List Char}
    (h : inp.drop i = c :: r) : cget inp i = c := by
  have h0 : (inp.drop i)[0]? = some c := by rw [h]; simp
  rw [List.getElem?_drop] at h0
  simp only [Nat.add_zero] at h0
  simp [cget, List.getD_eq_getElem?_getD, h0]

theorem cget_of_drop_nil {inp : List Char} {i : Nat}
    (h : inp.drop i = []) : cget inp i = NUL := by
  have hle : inp.length ≤ i := List.drop_eq_nil_iff.mp h
  simp [cget, List.getD_eq_getElem?_getD, List.getElem?_eq_none hle]

theorem drop_succ_of_drop_cons {inp : List Char} {i : Nat} {c : Char} {r : List Char}
    (h : inp.drop i = c :: r) : inp.drop (i + 1) = r := by
  have : inp.drop (i + 1) = (inp.drop i).drop 1 := by
    rw [List.drop_drop]
  rw [this, h]; rfl

theorem strlen_eq_length {s : List Char} (h : NUL ∉ s) : strlen s = s.length := by
  induction s with
  | nil => rfl
  | cons c cs ih =>
    have hc : c ≠ NUL := fun e => h (by simp [e])
    have hcs : NUL ∉ cs := fun e => h (by simp [e])
    simp [strlen, hc, ih hcs]

theorem strlen_append_nul {s : List Char} (h : NUL ∉ s) (t : List Char) :
    strlen (s ++ NUL :: t) = s.length := by
  induction s with
  | nil => simp [strlen]
  | cons c cs ih =>
    have hc : c ≠ NUL := fun e => h (by simp [e])
    have hcs : NUL ∉ cs := fun e => h (by simp [e])
    simp [strlen, hc, ih hcs]

theorem cstr_append_nul {s : List Char} (h : NUL ∉ s) (t : List Char) :
    cstr (s ++ NUL :: t) = s := by
  induction s with
  | nil => simp [cstr]
  | cons c cs ih =>
    have hc : c ≠ NUL := fun e => h (by simp [e])
    have hcs : NUL ∉ cs := fun e => h (by simp [e])
    simp [cstr, hc, ih hcs]

theorem bset_append {cap : Nat} (w junk : List Char) (c : Char) (h : w.length < cap) :
    bset cap (w ++ junk) w.length c = some ((w ++ [c]) ++ junk.drop 1) := by
  have h1 : w.length < cap ∧ w.length ≤ (w ++ junk).length := ⟨h, by simp⟩
  simp only [bset, h1, and_self, if_true]
  congr 1
  rw [List.take_left, List.drop_append_eq_append_drop]
  simp [List.drop_eq_nil_of_le]

theorem trail_nil : trail [] = [SEP] := rfl

theorem trail_append (st : List (List Char)) (x : List Char) :
    trail (st ++ [x]) = trail st ++ (x ++ [SEP]) := by
  simp [trail]

theorem flatten_eq_intercalate (st : List (List Char)) (h : st ≠ []) :
    (st.map (fun s => s ++ [SEP])).flatten = List.intercalate [SEP] st ++ [SEP] := by
  induction st with
  | nil => exact absurd rfl h
  | cons a l ih =>
    cases l with
    | nil => simp [List.intercalate]
    | cons b l =>
      have := ih (by simp)
      simp only [List.map_cons, List.flatten_cons] at this ⊢
      rw [this]
      simp [List.intercalate, List.intersperse]

theorem trail_eq_render (st : List (List Char)) (h : st ≠ []) :
    trail st = render st ++ [SEP] := by
  simp [trail, render, flatten_eq_intercalate st h]

theorem trail_length_pos (st : List (List Char)) : 0 < (trail st).length := by
  simp [trail]

theorem nul_not_mem_trail {st : List (List Char)} (h : ∀ x ∈ st, BufSeg x) :
    NUL ∉ trail st := by
  induction st using List.reverseRecOn with
  | nil => simp [trail, sep_ne_nul.symm]
  | append_singleton l a ih =>
    rw [trail_append]
    have h1 : NUL ∉ trail l := ih (fun x hx => h x (by simp [hx]))
    have h2 : NUL ∉ a := (h a (by simp)).2
    simp [h1, h2, sep_ne_nul.symm]

theorem get?_at_length (w junk : List Char) (c : Char) {n : Nat} (hn : n = w.length) :
    (w ++ c :: junk).get? n = some c := by
  subst hn
  rw [List.get?_eq_getElem?, List.getElem?_append_right (le_refl _)]
  simp

theorem back_seg (w seg junk : List Char) (h : SEP ∉ seg) :
    back (((w ++ [SEP]) ++ seg) ++ junk) (w.length + 1 + seg.length) = some (w.length + 1) := by
  induction seg using List.reverseRecOn generalizing junk with
  | nil =>
    have e : (((w ++ [SEP]) ++ []) ++ junk) = w ++ SEP :: junk := by simp
    have hg : (w ++ SEP :: junk).get? w.length = some SEP := get?_at_length w junk SEP rfl
    rw [e]
    show back (w ++ SEP :: junk) (w.length + 1) = some (w.length + 1)
    rw [back, hg]
    simp
  | append_singleton l a ih =>
    have ha : a ≠ SEP := fun e => h (by simp [e])
    have hl : SEP ∉ l := fun e => h (by simp [e])
    have hlen : w.length + 1 + (l ++ [a]).length = (w.length + 1 + l.length) + 1 := by
      simp; omega
    have e : (((w ++ [SEP]) ++ (l ++ [a])) ++ junk) = ((w ++ [SEP]) ++ l) ++ (a :: junk) := by
      simp
    have hg : (((w ++ [SEP]) ++ l) ++ (a :: junk)).get? (w.length + 1 + l.length) = some a :=
      get?_at_length _ junk a (by simp; omega)
    rw [hlen, e, back, hg]
    simp only [ha, if_false]
    exact ih (a :: junk) hl

theorem trail_ends (st : List (List Char)) :
    ∃ w, trail st = w ++ [SEP] ∧ (st = [] → w = []) := by
  rcases List.eq_nil_or_concat st with h | ⟨l, a, h⟩
  · subst h; exact ⟨[], rfl, fun _ => rfl⟩
  · subst h
    refine ⟨trail l ++ a, ?_, fun e => absurd e (by simp)⟩
    simp [List.concat_eq_append, trail_append]

theorem render_append (st : List (List Char)) (x : List Char) :
    render (st ++ [x]) = trail st ++ x := by
  have h1 := trail_eq_render (st ++ [x]) (by simp)
  rw [trail_append] at h1
  have h2 : (trail st ++ x) ++ [SEP] = render (st ++ [x]) ++ [SEP] := by
    rw [← h1]; simp
  exact (List.append_cancel_right h2).symm

theorem pop_inv {st : List (List Char)} {s : St} (hg : ∀ x ∈ st, BufSeg x)
    (h : Inv st [] s) :
    ∃ t, pop s = some t ∧ Inv st.dropLast [] t ∧ t.ii = s.ii ∧ t.oi ≤ s.oi := by
  obtain ⟨junk, hout, hoi, h0, h1⟩ := h
  rcases List.eq_nil_or_concat st with hst | ⟨l, a, hst⟩
  · subst hst
    have hl : s.lastsep = 0 := h0 rfl
    refine ⟨{ s with oi := 1 }, by simp [pop, hl], ⟨junk, hout, rfl, fun _ => hl, fun e => absurd rfl e⟩,
      rfl, ?_⟩
    simp [hoi, trail]
  · rw [List.concat_eq_append] at hst
    subst hst
    obtain ⟨w, hw, hw0⟩ := trail_ends l
    have ha : SEP ∉ a := (hg a (by simp)).1
    have hls : s.lastsep = w.length + 1 + a.length := by
      have := h1 (by simp)
      rw [trail_append, hw] at this
      simp at this
      omega
    have hout2 : s.out = (((w ++ [SEP]) ++ a) ++ (SEP :: junk)) := by
      rw [hout, trail_append, hw]; simp
    have hb : back s.out s.lastsep = some (w.length + 1) := by
      rw [hout2, hls]; exact back_seg w a (SEP :: junk) ha
    have hne : s.lastsep ≠ 0 := by omega
    have hdl : (l ++ [a]).dropLast = l := by simp
    rw [hdl]
    refine ⟨{ s with oi := w.length + 1, lastsep := w.length + 1 - 1 }, by simp [pop, hne, hb],
      ⟨a ++ SEP :: junk, ?_, ?_, ?_, ?_⟩, rfl, ?_⟩
    · simp [hout2, hw]
    · simp [hw]
    · intro e; simp [hw0 e]
    · intro _; simp [hw]
    · simp [hoi, trail_append, hw]

theorem run_fin_seg (cap : Nat) (inp : List Char) (n : Nat) {st : List (List Char)}
    {p : List Char} {s : St} (hg : ∀ x ∈ st, BufSeg x) (hp : p ≠ []) (hpn : NUL ∉ p)
    (h : Inv st p s) (hc : s.oi < cap) :
    run cap inp (n + 1) Label.fin s = Result.ok (trail st ++ p) := by
  obtain ⟨junk, hout, hoi, h0, h1⟩ := h
  have hplen : 0 < p.length := List.length_pos.mpr hp
  have hcond : ¬ (s.oi = s.lastsep + 1 ∧ s.lastsep ≠ 0) := by
    rintro ⟨e1, e2⟩
    by_cases hst : st = []
    · exact e2 (h0 hst)
    · have := h1 hst
      rw [hoi, List.length_append] at e1
      omega
  have hw : (trail st ++ p).length < cap := by rw [← hoi]; exact hc
  have hnul : NUL ∉ trail st ++ p := by
    simp only [List.mem_append, not_or]
    exact ⟨nul_not_mem_trail hg, hpn⟩
  rw [run]
  simp only [hcond, if_false]
  rw [hout, hoi, bset_append _ _ _ hw]
  simp only []
  rw [List.append_assoc, List.singleton_append, cstr_append_nul hnul]

theorem run_fin_slash (cap : Nat) (inp : List Char) (n : Nat) {st : List (List Char)}
    {s : St} (hg : ∀ x ∈ st, BufSeg x) (h : Inv st [] s) (hc : s.oi < cap) :
    run cap inp (n + 1) Label.fin s = Result.ok (render st) := by
  obtain ⟨junk, hout, hoi, h0, h1⟩ := h
  simp only [List.append_nil] at hout hoi
  by_cases hst : st = []
  · subst hst
    have hl := h0 rfl
    have hcond : ¬ (s.oi = s.lastsep + 1 ∧ s.lastsep ≠ 0) := fun e => e.2 hl
    have hw : (trail []).length < cap := by rw [← hoi]; exact hc
    rw [run]
    simp only [hcond, if_false]
    rw [hout, hoi, bset_append _ _ _ hw]
    simp only []
    rw [List.append_assoc, List.singleton_append, cstr_append_nul (nul_not_mem_trail hg)]
    rfl
  · have hl := h1 hst
    have htr := trail_eq_render st hst
    have hcond : s.oi = s.lastsep + 1 ∧ s.lastsep ≠ 0 := by
      refine ⟨by omega, ?_⟩
      rw [htr] at hl
      simp [render] at hl
      omega
    have hls : s.lastsep = (render st).length := by
      rw [htr] at hl; simp at hl; omega
    have hw : (render st).length < cap := by omega
    have hnul : NUL ∉ render st := by
      have := nul_not_mem_trail hg
      rw [htr] at this
      intro e; exact this (by simp [e])
    rw [run, if_pos hcond, hout, htr, hls, List.append_assoc, bset_append _ _ _ hw]
    simp only []
    rw [List.append_assoc, List.singleton_append, cstr_append_nul hnul]

theorem run_normal_copy (cap : Nat) (inp : List Char) (st : List (List Char)) :
    ∀ (seg : List Char), SEP ∉ seg → NUL ∉ seg →
    ∀ (p tl : List Char) (s : St) (n : Nat), Inv st p s → inp.drop s.ii = seg ++ tl →
      s.oi + seg.length ≤ cap →
      ∃ t, run cap inp (n + seg.length) Label.normal s = run cap inp n Label.normal t ∧
        Inv st (p ++ seg) t ∧ inp.drop t.ii = tl ∧ t.oi = s.oi + seg.length := by
  intro seg
  induction seg with
  | nil =>
    intro _ _ p tl s n hinv hdrop _
    exact ⟨s, rfl, by simpa using hinv, by simpa using hdrop, rfl⟩
  | cons c seg ih =>
    intro hsep hnul p tl s n hinv hdrop hcap
    have hc1 : c ≠ SEP := fun e => hsep (by simp [e])
    have hc2 : c ≠ NUL := fun e => hnul (by simp [e])
    have hs1 : SEP ∉ seg := fun e => hsep (by simp [e])
    have hs2 : NUL ∉ seg := fun e => hnul (by simp [e])
    have hdrop1 : inp.drop s.ii = c :: (seg ++ tl) := by simpa using hdrop
    have hget : cget inp s.ii = c := cget_of_drop_cons hdrop1
    obtain ⟨junk, hout, hoi, h0, h1⟩ := hinv
    simp only [List.length_cons] at hcap
    have hb : bset cap s.out s.oi c = some (((trail st ++ p) ++ [c]) ++ junk.drop 1) := by
      rw [hout, hoi]; exact bset_append _ _ _ (by omega)
    have hinv0 : Inv st (p ++ [c])
        { s with out := ((trail st ++ p) ++ [c]) ++ junk.drop 1, oi := s.oi + 1, ii := s.ii + 1 } :=
      ⟨junk.drop 1, by simp, by simp [hoi]; omega, h0, h1⟩
    obtain ⟨t, ht, hinvt, hdt, hoit⟩ :=
      ih hs1 hs2 (p ++ [c]) tl _ n hinv0 (drop_succ_of_drop_cons hdrop1) (by simp; omega)
    refine ⟨t, ?_, by simpa using hinvt, hdt, by simp at hoit ⊢; omega⟩
    rw [← ht]
    show run cap inp ((n + seg.length) + 1) Label.normal s = _
    rw [run]
    simp only [hget, hc1, hc2, if_false, hb]

theorem run_normal_nul (cap : Nat) (inp : List Char) {st : List (List Char)}
    (hg : ∀ x ∈ st, BufSeg x) (p seg : List Char) (s : St) (n : Nat)
    (hinv : Inv st p s) (hdrop : inp.drop s.ii = seg) (hsep : SEP ∉ seg) (hnul : NUL ∉ seg)
    (hps : p ++ seg ≠ []) (hpn : NUL ∉ p) (hcap : s.oi + seg.length < cap)
    (hn : seg.length + 2 ≤ n) :
    run cap inp n Label.normal s = Result.ok (render (st ++ [p ++ seg])) := by
  obtain ⟨t, ht, hinvt, hdt, hoit⟩ :=
    run_normal_copy cap inp st seg hsep hnul p [] s (n - seg.length) hinv (by simpa using hdrop)
      (by omega)
  have e1 : n = (n - seg.length) + seg.length := by omega
  have e2 : n - seg.length = (n - seg.length - 2) + 1 + 1 := by omega
  rw [e1, ht, e2, run]
  simp only [cget_of_drop_nil hdt, if_true]
  rw [run_fin_seg cap inp _ hg hps (by simp [hpn, hnul]) hinvt (by omega), render_append]

theorem run_normal_sep (cap : Nat) (inp : List Char) {st : List (List Char)}
    (p seg r : List Char) (s : St) (n : Nat)
    (hinv : Inv st p s) (hdrop : inp.drop s.ii = seg ++ SEP :: r) (hsep : SEP ∉ seg)
    (hnul : NUL ∉ seg) (hcap : s.oi + seg.length < cap) (hn : seg.length + 1 ≤ n) :
    ∃ t, run cap inp n Label.normal s = run cap inp (n - (seg.length + 1)) Label.after_slash t ∧
      Inv (st ++ [p ++ seg]) [] t ∧ inp.drop t.ii = r ∧ t.oi = s.oi + seg.length + 1 := by
  obtain ⟨t, ht, hinvt, hdt, hoit⟩ :=
    run_normal_copy cap inp st seg hsep hnul p (SEP :: r) s (n - seg.length) hinv hdrop (by omega)
  have e1 : n = (n - seg.length) + seg.length := by omega
  have e2 : n - seg.length = (n - (seg.length + 1)) + 1 := by omega
  obtain ⟨junk, hout, hoi, h0, h1⟩ := hinvt
  have hb : bset cap t.out t.oi SEP = some (((trail st ++ (p ++ seg)) ++ [SEP]) ++ junk.drop 1) := by
    rw [hout, hoi]; exact bset_append _ _ _ (by omega)
  refine ⟨St.mk (t.ii + 1) (t.oi + 1) t.oi (((trail st ++ (p ++ seg)) ++ [SEP]) ++ junk.drop 1),
    ?_, ⟨junk.drop 1, ?_, ?_, ?_, ?_⟩, drop_succ_of_drop_cons hdt, by simp; omega⟩
  · conv_lhs => rw [e1, ht, e2, run]
    simp only [cget_of_drop_cons hdt, sep_ne_nul, if_false, if_true, hb]
  · simp [trail_append]
  · simp [trail_append, hoi]; omega
  · intro e; simp at e
  · intro _; simp [trail_append, hoi]; omega

/-! ## Facts about the reference normalisation -/

theorem splitSep_noSep {seg : List Char} (h : SEP ∉ seg) : splitSep seg = [seg] := by
  induction seg with
  | nil => rfl
  | cons c l ih =>
    have hc : c ≠ SEP := fun e => h (by simp [e])
    have hl : SEP ∉ l := fun e => h (by simp [e])
    simp [splitSep, hc, ih hl]

theorem splitSep_append_sep {seg : List Char} (h : SEP ∉ seg) (r : List Char) :
    splitSep (seg ++ SEP :: r) = seg :: splitSep r := by
  induction seg with
  | nil => simp [splitSep]
  | cons c l ih =>
    have hc : c ≠ SEP := fun e => h (by simp [e])
    have hl : SEP ∉ l := fun e => h (by simp [e])
    simp [splitSep, hc, ih hl]

theorem segments_nil : segments [] = [] := by
  simp [segments, splitSep]

theorem segments_sep (r : List Char) : segments (SEP :: r) = segments r := by
  simp [segments, splitSep]

theorem segments_dot : segments [DOT] = [] := by
  simp [segments, splitSep, dot_ne_sep]

theorem segments_dot_sep (r : List Char) : segments (DOT :: SEP :: r) = segments r := by
  have := @splitSep_append_sep [DOT] (by simp [dot_ne_sep.symm]) r
  simp only [List.singleton_append] at this
  simp [segments, this]

theorem segments_seg {seg : List Char} (h : SEP ∉ seg) (h0 : seg ≠ []) (h1 : seg ≠ [DOT]) :
    segments seg = [seg] := by
  simp [segments, splitSep_noSep h, h0, h1]

theorem segments_seg_sep {seg : List Char} (h : SEP ∉ seg) (h0 : seg ≠ []) (h1 : seg ≠ [DOT])
    (r : List Char) : segments (seg ++ SEP :: r) = seg :: segments r := by
  simp [segments, splitSep_append_sep h, h0, h1]

theorem span_sep (l : List Char) :
    ∃ seg tl, l = seg ++ tl ∧ SEP ∉ seg ∧ (tl = [] ∨ ∃ r, tl = SEP :: r) := by
  induction l with
  | nil => exact ⟨[], [], rfl, by simp, Or.inl rfl⟩
  | cons c l ih =>
    by_cases hc : c = SEP
    · exact ⟨[], c :: l, rfl, by simp, Or.inr ⟨l, by rw [hc]⟩⟩
    · obtain ⟨seg, tl, e, hs, ht⟩ := ih
      exact ⟨c :: seg, tl, by simp [e], by simp [hs, Ne.symm hc], ht⟩

/-! ## Single blocks of `make_abs_path` -/

theorem step_slash_sep (cap : Nat) (inp : List Char) (n : Nat) (s : St)
    (h : cget inp s.ii = SEP) :
    run cap inp (n + 1) Label.after_slash s =
      run cap inp n Label.after_slash (St.mk (s.ii + 1) s.oi s.lastsep s.out) := by
  rw [run, if_pos h]

theorem step_slash_nul (cap : Nat) (inp : List Char) (n : Nat) (s : St)
    (h : cget inp s.ii = NUL) :
    run cap inp (n + 1) Label.after_slash s = run cap inp n Label.fin s := by
  rw [run, if_neg (by rw [h]; exact sep_ne_nul.symm), if_pos h]

theorem step_slash_dot (cap : Nat) (inp : List Char) (n : Nat) (s : St)
    (h : cget inp s.ii = DOT) :
    run cap inp (n + 1) Label.after_slash s =
      run cap inp n Label.one_dot (St.mk (s.ii + 1) s.oi s.lastsep s.out) := by
  rw [run, if_neg (by rw [h]; exact dot_ne_sep), if_neg (by rw [h]; exact dot_ne_nul), if_pos h]

theorem step_slash_other (cap : Nat) (inp : List Char) (n : Nat) (s : St)
    (h1 : cget inp s.ii ≠ SEP) (h2 : cget inp s.ii ≠ NUL) (h3 : cget inp s.ii ≠ DOT) :
    run cap inp (n + 1) Label.after_slash s = run cap inp n Label.normal s := by
  rw [run, if_neg h1, if_neg h2, if_neg h3]

theorem step_one_nul (cap : Nat) (inp : List Char) (n : Nat) (s : St)
    (h : cget inp s.ii = NUL) :
    run cap inp (n + 1) Label.one_dot s = run cap inp n Label.fin s := by
  rw [run, if_pos h]

theorem step_one_sep (cap : Nat) (inp : List Char) (n : Nat) (s : St)
    (h : cget inp s.ii = SEP) :
    run cap inp (n + 1) Label.one_dot s =
      run cap inp n Label.after_slash (St.mk (s.ii + 1) s.oi s.lastsep s.out) := by
  rw [run, if_neg (by rw [h]; exact sep_ne_nul), if_pos h]

theorem step_one_dot (cap : Nat) (inp : List Char) (n : Nat) (s : St)
    (h : cget inp s.ii = DOT) :
    run cap inp (n + 1) Label.one_dot s =
      run cap inp n Label.two_dot (St.mk (s.ii + 1) s.oi s.lastsep s.out) := by
  rw [run, if_neg (by rw [h]; exact dot_ne_nul), if_neg (by rw [h]; exact dot_ne_sep), if_pos h]

theorem step_one_other (cap : Nat) (inp : List Char) (n : Nat) (s : St) (o : List Char)
    (h1 : cget inp s.ii ≠ NUL) (h2 : cget inp s.ii ≠ SEP) (h3 : cget inp s.ii ≠ DOT)
    (hb : bset cap s.out s.oi DOT = some o) :
    run cap inp (n + 1) Label.one_dot s =
      run cap inp n Label.normal (St.mk s.ii (s.oi + 1) s.lastsep o) := by
  rw [run, if_neg h1, if_neg h2, if_neg h3, hb]

theorem step_two_nul (cap : Nat) (inp : List Char) (n : Nat) (s t : St)
    (h : cget inp s.ii = NUL) (hp : pop s = some t) :
    run cap inp (n + 1) Label.two_dot s = run cap inp n Label.fin t := by
  rw [run, if_pos h, hp]

theorem step_two_sep (cap : Nat) (inp : List Char) (n : Nat) (s t : St)
    (h : cget inp s.ii = SEP) (hp : pop s = some t) :
    run cap inp (n + 1) Label.two_dot s =
      run cap inp n Label.after_slash (St.mk (t.ii + 1) t.oi t.lastsep t.out) := by
  rw [run, if_neg (by rw [h]; exact sep_ne_nul), if_pos h, hp]

theorem step_two_other (cap : Nat) (inp : List Char) (n : Nat) (s : St) (o o2 : List Char)
    (h1 : cget inp s.ii ≠ NUL) (h2 : cget inp s.ii ≠ SEP)
    (hb : bset cap s.out s.oi DOT = some o) (hb2 : bset cap o (s.oi + 1) DOT = some o2) :
    run cap inp (n + 1) Label.two_dot s =
      run cap inp n Label.normal (St.mk s.ii (s.oi + 2) s.lastsep o2) := by
  rw [run, if_neg h1, if_neg h2, hb]
  simp only [hb2]

/-! ## The state machine computes the reference normalisation -/

theorem run_normal_push (cap : Nat) (inp : List Char) {st : List (List Char)}
    (hg : ∀ x ∈ st, BufSeg x) (p seg tl : List Char) (s : St) (n : Nat)
    (hinv : Inv st p s) (hdrop : inp.drop s.ii = seg ++ tl) (hsep : SEP ∉ seg)
    (hnul : NUL ∉ seg) (hpsep : SEP ∉ p) (hpnul : NUL ∉ p) (hne : p ++ seg ≠ [])
    (hd1 : p ++ seg ≠ [DOT]) (hd2 : p ++ seg ≠ [DOT, DOT])
    (htl : tl = [] ∨ ∃ r, tl = SEP :: r) (hnt : NUL ∉ tl)
    (hcap : s.oi + seg.length + tl.length < cap) (hn : seg.length + 2 * tl.length + 2 ≤ n)
    (ih : ∀ r, tl = SEP :: r → SlashSpec cap inp r) :
    run cap inp n Label.normal s =
      Result.ok (render ((segments ((p ++ seg) ++ tl)).foldl stackStep st)) := by
  have hfsep : SEP ∉ p ++ seg := by simp [hpsep, hsep]
  have hfnul : NUL ∉ p ++ seg := by simp [hpnul, hnul]
  rcases htl with rfl | ⟨r, rfl⟩
  · rw [run_normal_nul cap inp hg p seg s n hinv (by simpa using hdrop) hsep hnul hne hpnul
      (by simpa using hcap) (by simpa using hn)]
    rw [List.append_nil, segments_seg hfsep hne hd1]
    simp [stackStep, hd2]
  · simp only [List.length_cons] at hcap hn
    obtain ⟨t, ht, hinvt, hdt, hoit⟩ :=
      run_normal_sep cap inp p seg r s n hinv hdrop hsep hnul (by omega) (by omega)
    have hgood : ∀ x ∈ st ++ [p ++ seg], BufSeg x := by
      intro x hx
      rcases List.mem_append.mp hx with h | h
      · exact hg x h
      · rw [List.mem_singleton.mp h]; exact ⟨hfsep, hfnul⟩
    rw [ht, ih r rfl (st ++ [p ++ seg]) t _ hdt (fun e => hnt (by simp [e])) hgood hinvt
      (by omega) (by omega)]
    rw [segments_seg_sep hfsep hne hd1]
    simp [stackStep, hd2]

theorem inv_write_dot (cap : Nat) {st : List (List Char)} {p : List Char} {s : St}
    (hinv : Inv st p s) (hc : s.oi < cap) :
    ∃ o, bset cap s.out s.oi DOT = some o ∧
      ∀ ii, Inv st (p ++ [DOT]) (St.mk ii (s.oi + 1) s.lastsep o) := by
  obtain ⟨junk, hout, hoi, h0, h1⟩ := hinv
  refine ⟨((trail st ++ p) ++ [DOT]) ++ junk.drop 1, ?_, fun ii => ⟨junk.drop 1, ?_, ?_, h0, h1⟩⟩
  · rw [hout, hoi]; exact bset_append _ _ _ (by omega)
  · simp
  · simp [hoi]; omega

theorem run_after_slash (cap : Nat) (inp : List Char) :
    ∀ (m : Nat) (rest : List Char), rest.length < m → SlashSpec cap inp rest := by
  intro m
  induction m with
  | zero => intro rest h; exact absurd h (Nat.not_lt_zero _)
  | succ m ih =>
    intro rest hm st s n hdrop hnul hg hinv hcap hn
    cases rest with
    | nil =>
      have e : n = (n - 2) + 1 + 1 := by simp at hn; omega
      rw [e, step_slash_nul _ _ _ _ (cget_of_drop_nil hdrop),
        run_fin_slash cap inp _ hg hinv (by omega), segments_nil]
      rfl
    | cons c r =>
      have hc : cget inp s.ii = c := cget_of_drop_cons hdrop
      have hdr : inp.drop (s.ii + 1) = r := drop_succ_of_drop_cons hdrop
      have hcn : c ≠ NUL := fun e => hnul (by simp [e])
      have hrn : NUL ∉ r := fun e => hnul (by simp [e])
      simp only [List.length_cons] at hm hcap hn
      have e1 : n = (n - 1) + 1 := by omega
      by_cases hcs : c = SEP
      · subst hcs
        rw [e1, step_slash_sep _ _ _ _ hc, segments_sep]
        exact ih r (by omega) st _ (n - 1) hdr hrn hg hinv (by simpa using by omega) (by omega)
      · obtain ⟨seg, tl, e, hs, ht⟩ := span_sep (c :: r)
        have hnt : NUL ∉ tl := fun h => hnul (by rw [e]; simp [h])
        have hns : NUL ∉ seg := fun h => hnul (by rw [e]; simp [h])
        have ihtl : ∀ r', tl = SEP :: r' → SlashSpec cap inp r' := by
          intro r' h
          refine ih r' ?_
          have := congrArg List.length e
          rw [h] at this
          simp at this
          omega
        cases seg with
        | nil =>
          exfalso
          rcases ht with rfl | ⟨r', rfl⟩
          · simp at e
          · simp at e; exact hcs e.1
        | cons c' seg1 =>
          simp only [List.cons_append, List.cons.injEq] at e
          obtain ⟨rfl, rfl⟩ := e
          simp only [List.length_append] at hm hcap hn
          by_cases hcd : c = DOT
          · subst hcd
            rw [e1, step_slash_dot _ _ _ _ hc]
            have e2 : n - 1 = (n - 2) + 1 := by omega
            cases seg1 with
            | nil =>
              simp only [List.nil_append] at hdr
              rcases ht with rfl | ⟨r', rfl⟩
              · simp only [List.length_cons, List.length_nil] at hcap hn
                have e3 : n - 2 = (n - 3) + 1 := by omega
                rw [e2, step_one_nul _ _ _ _ (cget_of_drop_nil hdr), e3]
                refine (run_fin_slash cap inp _ hg (s := St.mk (s.ii + 1) s.oi s.lastsep s.out)
                  hinv (by show s.oi < cap; omega)).trans ?_
                simp [segments_dot]
              · rw [e2, step_one_sep _ _ _ _ (cget_of_drop_cons hdr)]
                simp only [List.nil_append, segments_dot_sep]
                simp only [List.length_cons, List.length_nil] at hcap hn
                exact ih r' (by simp at hm; omega) st _ (n - 2) (drop_succ_of_drop_cons hdr)
                  (fun h => hnt (by simp [h])) hg hinv (by simpa using by omega) (by omega)
            | cons d seg2 =>
              have hd1 : d ≠ SEP := fun h => hs (by simp [h])
              have hd2 : d ≠ NUL := fun h => hns (by simp [h])
              have hgd : cget inp (s.ii + 1) = d := cget_of_drop_cons hdr
              have hdr2 : inp.drop (s.ii + 1 + 1) = seg2 ++ tl := drop_succ_of_drop_cons hdr
              have hs2 : SEP ∉ seg2 := fun h => hs (by simp [h])
              have hn2 : NUL ∉ seg2 := fun h => hns (by simp [h])
              simp only [List.length_cons] at hm hcap hn
              by_cases hdd : d = DOT
              · subst hdd
                rw [e2, step_one_dot _ _ _ _ hgd]
                have e3 : n - 2 = (n - 3) + 1 := by omega
                cases seg2 with
                | nil =>
                  simp only [List.nil_append] at hdr2
                  simp only [List.length_nil] at hm hcap hn
                  obtain ⟨t, hp, hinvt, hii, hoi⟩ :=
                    pop_inv hg (s := St.mk (s.ii + 1 + 1) s.oi s.lastsep s.out) hinv
                  have hgt : ∀ x ∈ st.dropLast, BufSeg x :=
                    fun x hx => hg x (List.mem_of_mem_dropLast hx)
                  have hoi2 : t.oi ≤ s.oi := hoi
                  have hii2 : t.ii = s.ii + 1 + 1 := hii
                  rcases ht with rfl | ⟨r', rfl⟩
                  · have e4 : n - 3 = (n - 4) + 1 := by omega
                    rw [e3, step_two_nul _ _ _ _ t (cget_of_drop_nil hdr2) hp, e4,
                      run_fin_slash cap inp _ hgt hinvt (by omega)]
                    have hseg : segments (DOT :: ([DOT] ++ [])) = [[DOT, DOT]] :=
                      @segments_seg [DOT, DOT] (by simp [dot_ne_sep.symm]) (by simp)
                        (by simp)
                    rw [hseg]
                    simp [stackStep]
                  · rw [e3, step_two_sep _ _ _ _ t (cget_of_drop_cons hdr2) hp]
                    have hseg : segments (DOT :: ([DOT] ++ SEP :: r')) =
                        [DOT, DOT] :: segments r' :=
                      @segments_seg_sep [DOT, DOT] (by simp [dot_ne_sep.symm]) (by simp)
                        (by simp) r'
                    rw [hseg]
                    simp only [List.length_cons] at hm hcap hn
                    have key := ih r' (by omega) st.dropLast
                      (St.mk (t.ii + 1) t.oi t.lastsep t.out) (n - 3)
                      (by show inp.drop (t.ii + 1) = r'
                          rw [hii2]; exact drop_succ_of_drop_cons hdr2)
                      (fun h => hnt (by simp [h])) hgt hinvt (by show t.oi + r'.length < cap; omega)
                      (by omega)
                    rw [key]
                    simp [stackStep]
                | cons e seg3 =>
                  simp only [List.length_cons] at hm hcap hn
                  obtain ⟨o, hb, hinv1⟩ := inv_write_dot cap hinv (by omega)
                  obtain ⟨o2, hb2, hinv2⟩ :=
                    inv_write_dot cap (hinv1 (s.ii + 1 + 1)) (by show s.oi + 1 < cap; omega)
                  have he1 : e ≠ SEP := fun h => hs (by simp [h])
                  have he2 : e ≠ NUL := fun h => hns (by simp [h])
                  have hge : cget inp (s.ii + 1 + 1) = e := cget_of_drop_cons hdr2
                  rw [e3, step_two_other cap inp _ (St.mk (s.ii + 1 + 1) s.oi s.lastsep s.out) o o2
                    (by rw [hge]; exact he2) (by rw [hge]; exact he1) hb hb2]
                  have key := run_normal_push cap inp hg [DOT, DOT] (e :: seg3) tl
                    (St.mk (s.ii + 1 + 1) (s.oi + 2) s.lastsep o2) (n - 3)
                    (by simpa using hinv2 (s.ii + 1 + 1)) hdr2 hs2 hn2
                    (by simp [dot_ne_sep.symm]) (by simp [dot_ne_nul.symm]) (by simp) (by simp)
                    (by simp) ht hnt
                    (by show s.oi + 2 + (e :: seg3).length + tl.length < cap
                        simp only [List.length_cons]; omega)
                    (by simp only [List.length_cons]; omega) ihtl
                  simpa using key
              · have hgd2 : cget inp (s.ii + 1) ≠ DOT := by rw [hgd]; exact hdd
                obtain ⟨o, hb, hinv1⟩ := inv_write_dot cap hinv (by omega)
                rw [e2, step_one_other cap inp _ (St.mk (s.ii + 1) s.oi s.lastsep s.out) o
                  (by rw [hgd]; exact hd2) (by rw [hgd]; exact hd1) hgd2 hb]
                have key := run_normal_push cap inp hg [DOT] (d :: seg2) tl
                  (St.mk (s.ii + 1) (s.oi + 1) s.lastsep o) (n - 2)
                  (by simpa using hinv1 (s.ii + 1)) hdr
                  (fun h => hs (List.mem_cons_of_mem _ h))
                  (fun h => hns (List.mem_cons_of_mem _ h))
                  (by simp [dot_ne_sep.symm]) (by simp [dot_ne_nul.symm]) (by simp) (by simp)
                  (by simp [hdd]) ht hnt
                  (by show s.oi + 1 + (d :: seg2).length + tl.length < cap
                      simp only [List.length_cons]; omega)
                  (by simp only [List.length_cons]; omega) ihtl
                simpa using key
          · have hc1 : cget inp s.ii ≠ SEP := by rw [hc]; exact hcs
            have hc2 : cget inp s.ii ≠ NUL := by rw [hc]; exact hcn
            have hc3 : cget inp s.ii ≠ DOT := by rw [hc]; exact hcd
            rw [e1, step_slash_other _ _ _ _ hc1 hc2 hc3]
            have key := run_normal_push cap inp hg [] (c :: seg1) tl s (n - 1) hinv
              (by simpa using hdrop) hs hns (by simp) (by simp) (by simp) (by simp [hcd])
              (by simp [hcd]) ht hnt
              (by simp only [List.length_cons]; omega)
              (by simp only [List.length_cons]; omega) ihtl
            simpa using key

theorem inv_init (junk : List Char) (l : Nat) (ii : Nat) (h : l = 0) :
    Inv [] [] (St.mk ii 1 l ([SEP] ++ junk)) :=
  ⟨junk, by simp [trail], by simp [trail], fun _ => h, fun e => absurd rfl e⟩

theorem make_abs_path_absolute (PATH_MAX : Nat) (getcwd : Except Nat (List Char))
    (r : List Char) (hnul : NUL ∉ r) (hlen : (SEP :: r).length < PATH_MAX) :
    make_abs_path PATH_MAX getcwd (SEP :: r) = Result.ok (normalize (SEP :: r)) := by
  have h0 : cget (SEP :: r) 0 = SEP := rfl
  have hn : NUL ∉ SEP :: r := by simp [hnul, sep_ne_nul.symm]
  have hb : bset PATH_MAX [] 0 SEP = some [SEP] := by
    have : 0 < PATH_MAX := by omega
    simp [bset, this]
  simp only [List.length_cons] at hlen
  unfold make_abs_path
  rw [if_neg (by rw [h0]; exact sep_ne_nul), if_pos h0,
    if_neg (by rw [strlen_eq_length hn]; simp only [List.length_cons]; omega), hb]
  simp only []
  have key := run_after_slash PATH_MAX (SEP :: r) (r.length + 1) r (by omega) []
    (St.mk 1 1 0 [SEP]) (fuel (SEP :: r)) rfl hnul (by simp) (inv_init [] 0 1 rfl)
    (by show 1 + r.length < PATH_MAX; omega)
    (by simp only [fuel, List.length_cons]; omega)
  rw [key, normalize, segments_sep]

theorem make_abs_path_of_head (PATH_MAX : Nat) (getcwd : Except Nat (List Char))
    (inp : List Char) (hnul : NUL ∉ inp) (habs : inp.head? = some SEP)
    (hlen : inp.length < PATH_MAX) :
    make_abs_path PATH_MAX getcwd inp = Result.ok (normalize inp) := by
  cases inp with
  | nil => simp at habs
  | cons a r =>
    simp only [List.head?_cons, Option.some.injEq] at habs
    subst habs
    exact make_abs_path_absolute PATH_MAX getcwd r (fun e => hnul (by simp [e])) hlen

/-! ## The normalisation yields canonical paths and leaves them alone -/

theorem mem_splitSep {l x : List Char} (h : x ∈ splitSep l) :
    SEP ∉ x ∧ ∀ c ∈ x, c ∈ l := by
  induction l generalizing x with
  | nil =>
    simp only [splitSep, List.mem_singleton] at h
    subst h; simp
  | cons a l ih =>
    by_cases ha : a = SEP
    · simp only [splitSep, ha, if_true, List.mem_cons] at h
      rcases h with rfl | h
      · simp
      · exact ⟨(ih h).1, fun c hc => List.mem_cons_of_mem _ ((ih h).2 c hc)⟩
    · cases hsp : splitSep l with
      | nil =>
        simp only [splitSep, ha, if_false, hsp, List.mem_singleton] at h
        subst h
        simp [Ne.symm ha]
      | cons y ys =>
        simp only [splitSep, ha, if_false, hsp, List.mem_cons] at h
        have hy := ih (x := y) (by rw [hsp]; simp)
        rcases h with rfl | h
        · refine ⟨by simp [Ne.symm ha, hy.1], ?_⟩
          intro c hc
          rcases List.mem_cons.mp hc with rfl | hc
          · simp
          · exact List.mem_cons_of_mem _ (hy.2 c hc)
        · have hx := ih (x := x) (by rw [hsp]; simp [h])
          exact ⟨hx.1, fun c hc => List.mem_cons_of_mem _ (hx.2 c hc)⟩

theorem mem_segments {l x : List Char} (h : x ∈ segments l) :
    x ≠ [] ∧ x ≠ [DOT] ∧ SEP ∉ x ∧ ∀ c ∈ x, c ∈ l := by
  simp only [segments, List.mem_filter, Bool.and_eq_true, decide_eq_true_eq] at h
  exact ⟨h.2.1, h.2.2, (mem_splitSep h.1).1, (mem_splitSep h.1).2⟩

theorem foldl_stackStep_canon (segs : List (List Char)) :
    ∀ acc : List (List Char), (∀ x ∈ acc, CanonSeg x) →
      (∀ x ∈ segs, x ≠ [] ∧ x ≠ [DOT] ∧ SEP ∉ x ∧ NUL ∉ x) →
      ∀ x ∈ segs.foldl stackStep acc, CanonSeg x := by
  induction segs with
  | nil => intro acc h _; simpa using h
  | cons a l ih =>
    intro acc hacc hsegs
    simp only [List.foldl_cons]
    refine ih _ ?_ (fun x hx => hsegs x (List.mem_cons_of_mem _ hx))
    intro x hx
    by_cases ha : a = [DOT, DOT]
    · simp only [stackStep, ha, if_true] at hx
      exact hacc x (List.mem_of_mem_dropLast hx)
    · simp only [stackStep, ha, if_false, List.mem_append, List.mem_singleton] at hx
      rcases hx with hx | rfl
      · exact hacc x hx
      · have := hsegs x (by simp)
        exact ⟨⟨this.1, this.2.2.1, this.2.2.2⟩, this.2.1, ha⟩

theorem resolve_canon {p : List Char} (hnul : NUL ∉ p) :
    ∀ x ∈ (segments p).foldl stackStep [], CanonSeg x := by
  refine foldl_stackStep_canon _ [] (by simp) ?_
  intro x hx
  have := mem_segments hx
  exact ⟨this.1, this.2.1, this.2.2.1, fun h => hnul (this.2.2.2 _ h)⟩

theorem normalize_canonical {p : List Char} (hnul : NUL ∉ p) : Canonical (normalize p) :=
  ⟨_, resolve_canon hnul, rfl⟩

theorem splitSep_ne_nil (l : List Char) : splitSep l ≠ [] := by
  cases l with
  | nil => simp [splitSep]
  | cons a l =>
    by_cases ha : a = SEP
    · simp [splitSep, ha]
    · cases hsp : splitSep l <;> simp [splitSep, ha, hsp]

theorem splitSep_append_last (l : List Char) : splitSep (l ++ [SEP]) = splitSep l ++ [[]] := by
  induction l with
  | nil => simp [splitSep]
  | cons a l ih =>
    by_cases ha : a = SEP
    · simp [splitSep, ha, ih]
    · cases hsp : splitSep l with
      | nil => exact absurd hsp (splitSep_ne_nil l)
      | cons y ys => simp [splitSep, ha, ih, hsp]

theorem segments_append_last (l : List Char) : segments (l ++ [SEP]) = segments l := by
  simp [segments, splitSep_append_last]

theorem segments_flatten (st : List (List Char)) (h : ∀ x ∈ st, CanonSeg x) (r : List Char) :
    segments ((st.map (fun s => s ++ [SEP])).flatten ++ r) = st ++ segments r := by
  induction st with
  | nil => simp
  | cons a l ih =>
    have ha := h a (by simp)
    have hl := ih (fun x hx => h x (List.mem_cons_of_mem _ hx))
    simp only [List.map_cons, List.flatten_cons, List.append_assoc, List.singleton_append,
      List.cons_append]
    rw [segments_seg_sep ha.1.2.1 ha.1.1 ha.2.1]
    simp only [List.nil_append, hl]

theorem segments_trail (st : List (List Char)) (h : ∀ x ∈ st, CanonSeg x) (r : List Char) :
    segments (trail st ++ r) = st ++ segments r := by
  simp only [trail, List.cons_append]
  rw [segments_sep, segments_flatten st h]

theorem segments_render (st : List (List Char)) (h : ∀ x ∈ st, CanonSeg x) :
    segments (render st) = st := by
  by_cases hst : st = []
  · subst hst
    show segments [SEP] = []
    rw [segments_sep, segments_nil]
  · rw [← segments_append_last, ← trail_eq_render st hst]
    have := segments_trail st h []
    simpa [segments_nil] using this

theorem foldl_stackStep_push (st : List (List Char)) (h : ∀ x ∈ st, x ≠ [DOT, DOT]) :
    ∀ acc : List (List Char), st.foldl stackStep acc = acc ++ st := by
  induction st with
  | nil => intro acc; simp
  | cons a l ih =>
    intro acc
    have ha : a ≠ [DOT, DOT] := h a (by simp)
    simp only [List.foldl_cons, stackStep, ha, if_false]
    rw [ih (fun x hx => h x (List.mem_cons_of_mem _ hx))]
    simp

theorem normalize_of_canonical {c : List Char} (h : Canonical c) : normalize c = c := by
  obtain ⟨st, hst, rfl⟩ := h
  rw [normalize, segments_render st hst, foldl_stackStep_push st (fun x hx => (hst x hx).2.2)]
  simp

theorem nul_not_mem_render {st : List (List Char)} (h : ∀ x ∈ st, GoodSeg x) :
    NUL ∉ render st := by
  by_cases hst : st = []
  · subst hst; simp [render, List.intercalate, sep_ne_nul.symm]
  · have := nul_not_mem_trail (fun x hx => (h x hx).2)
    rw [trail_eq_render st hst] at this
    intro e; exact this (by simp [e])

/-! ## The output fits the buffer -/

theorem cstr_length_le (a b : List Char) : (cstr (a ++ NUL :: b)).length ≤ a.length := by
  induction a with
  | nil => simp [cstr]
  | cons c cs ih =>
    by_cases hc : c = NUL
    · simp [cstr, hc]
    · simp [cstr, hc]; exact ih

theorem bset_some {cap : Nat} {out o : List Char} {i : Nat} {c : Char}
    (h : bset cap out i c = some o) :
    i < cap ∧ o = out.take i ++ c :: out.drop (i + 1) := by
  unfold bset at h
  split at h
  · rename_i hc
    exact ⟨hc.1, by simpa using h.symm⟩
  · exact absurd h (by simp)

theorem run_ok_length (cap : Nat) (inp : List Char) :
    ∀ (n : Nat) (l : Label) (s : St) (out : List Char),
      run cap inp n l s = Result.ok out → out.length < cap := by
  intro n
  induction n with
  | zero => intro l s out h; simp [run] at h
  | succ n ih =>
    intro l s out h
    cases l with
    | after_slash =>
      rw [run] at h
      split at h
      · exact ih _ _ _ h
      · split at h
        · exact ih _ _ _ h
        · split at h
          · exact ih _ _ _ h
          · exact ih _ _ _ h
    | one_dot =>
      rw [run] at h
      split at h
      · exact ih _ _ _ h
      · split at h
        · exact ih _ _ _ h
        · split at h
          · exact ih _ _ _ h
          · split at h
            · exact absurd h (by simp)
            · exact ih _ _ _ h
    | two_dot =>
      rw [run] at h
      split at h
      · split at h
        · exact absurd h (by simp)
        · exact ih _ _ _ h
      · split at h
        · split at h
          · exact absurd h (by simp)
          · exact ih _ _ _ h
        · split at h
          · exact absurd h (by simp)
          · split at h
            · exact absurd h (by simp)
            · exact ih _ _ _ h
    | normal =>
      rw [run] at h
      split at h
      · exact ih _ _ _ h
      · split at h
        · split at h
          · exact absurd h (by simp)
          · exact ih _ _ _ h
        · split at h
          · exact absurd h (by simp)
          · exact ih _ _ _ h
    | fin =>
      rw [run] at h
      split at h
      · exact absurd h (by simp)
      · rename_i o hb
        obtain ⟨hi, ho⟩ := bset_some hb
        simp only [Result.ok.injEq] at h
        rw [← h, ho]
        have h1 := cstr_length_le (s.out.take
          (if s.oi = s.lastsep + 1 ∧ s.lastsep ≠ 0 then s.lastsep else s.oi))
          (s.out.drop ((if s.oi = s.lastsep + 1 ∧ s.lastsep ≠ 0 then s.lastsep else s.oi) + 1))
        have h2 := List.length_take_le
          (if s.oi = s.lastsep + 1 ∧ s.lastsep ≠ 0 then s.lastsep else s.oi) s.out
        omega

theorem make_abs_path_ok_length {PATH_MAX : Nat} {getcwd : Except Nat (List Char)}
    {inp out : List Char} (h : make_abs_path PATH_MAX getcwd inp = Result.ok out) :
    out.length < PATH_MAX := by
  unfold make_abs_path at h
  split at h
  · exact absurd h (by simp)
  · split at h
    · split at h
      · exact absurd h (by simp)
      · split at h
        · exact absurd h (by simp)
        · exact run_ok_length _ _ _ _ _ _ h
    · split at h
      · exact absurd h (by simp)
      · split at h
        · exact absurd h (by simp)
        · split at h
          · exact absurd h (by simp)
          · exact run_ok_length _ _ _ _ _ _ h

/-! ## Relative inputs below a canonical working directory -/

theorem make_abs_path_relative (PATH_MAX : Nat) (c inp : List Char) (hc : Canonical c)
    (hroot : c ≠ [SEP]) (hnul : NUL ∉ inp) (hne : inp ≠ []) (hrel : inp.head? ≠ some SEP)
    (hlen : c.length + inp.length + 1 < PATH_MAX) :
    make_abs_path PATH_MAX (Except.ok c) inp = Result.ok (normalize (c ++ SEP :: inp)) := by
  obtain ⟨st, hst, rfl⟩ := hc
  have hg : ∀ x ∈ st, GoodSeg x := fun x hx => (hst x hx).1
  have hst0 : st ≠ [] := by
    intro e; subst e; exact hroot rfl
  have htr := trail_eq_render st hst0
  have hcn : NUL ∉ render st := nul_not_mem_render hg
  cases inp with
  | nil => exact absurd rfl hne
  | cons a r =>
    have ha1 : a ≠ NUL := fun e => hnul (by simp [e])
    have ha2 : a ≠ SEP := fun e => hrel (by simp [e])
    have h0 : cget (a :: r) 0 = a := rfl
    have hs1 : strlen (render st ++ [NUL]) = (render st).length := strlen_append_nul hcn []
    have hb : bset PATH_MAX (render st ++ [NUL]) (render st).length SEP
        = some ((render st ++ [SEP]) ++ [NUL].drop 1) :=
      bset_append _ _ _ (by omega)
    unfold make_abs_path
    rw [if_neg (by rw [h0]; exact ha1), if_neg (by rw [h0]; exact ha2)]
    simp only []
    rw [hs1, strlen_eq_length hnul, if_neg (by omega), hb]
    simp only []
    have hinv : Inv st [] (St.mk 0 ((render st).length + 1) (render st).length
        ((render st ++ [SEP]) ++ [NUL].drop 1)) :=
      ⟨[], by simp [htr], by simp [htr], fun e => absurd e hst0, fun _ => by simp [htr]⟩
    have key := run_after_slash PATH_MAX (a :: r) ((a :: r).length + 1) (a :: r) (by omega) st
      (St.mk 0 ((render st).length + 1) (render st).length
        ((render st ++ [SEP]) ++ [NUL].drop 1)) (fuel (a :: r)) rfl hnul
      (fun x hx => (hg x hx).2) hinv
      (by show (render st).length + 1 + (a :: r).length < PATH_MAX; omega)
      (by simp only [fuel]; omega)
    rw [key, normalize]
    have e : render st ++ SEP :: a :: r = trail st ++ (a :: r) := by rw [htr]; simp
    rw [e, segments_trail st hst, List.foldl_append,
      foldl_stackStep_push st (fun x hx => (hst x hx).2.2)]
    simp

/-! ## The claims about `make_abs_path` -/

/-- C1: for every absolute input string (free of NUL, first character the
separator, length below `PATH_MAX`) `make_abs_path` returns 0 and its output
is the reference lexical normalisation `normalize`: split on the separator,
drop the empty and the `.` segments, run the remaining ones over a stack on
which `..` pops (or does nothing on the empty stack), and write the separator
followed by the stack joined by single separators. -/
theorem make_abs_path_eq_normalize (PATH_MAX : Nat) (getcwd : Except Nat (List Char))
    (inp : List Char) (hnul : NUL ∉ inp) (habs : inp.head? = some SEP)
    (hlen : inp.length < PATH_MAX) :
    make_abs_path PATH_MAX getcwd inp = Result.ok (normalize inp) := by
  cases inp with
  | nil => simp at habs
  | cons a r =>
    simp only [List.head?_cons, Option.some.injEq] at habs
    subst habs
    exact make_abs_path_absolute PATH_MAX getcwd r (fun e => hnul (by simp [e])) hlen

theorem make_abs_path_eq_normalize_witness :
    NUL ∉ "/a/./b//../c/".toList ∧ "/a/./b//../c/".toList.head? = some SEP ∧
      make_abs_path 4096 (Except.error 0) "/a/./b//../c/".toList = Result.ok "/a/c".toList :=
  ⟨by decide, by decide,
    (make_abs_path_eq_normalize 4096 (Except.error 0) "/a/./b//../c/".toList (by decide)
      (by decide) (by decide)).trans (by decide)⟩

/-- C2: idempotence.  When `make_abs_path` returns 0 on an absolute input `p`
with output `out`, it returns 0 on `out` as well, with the same output. -/
theorem make_abs_path_idempotent (PATH_MAX : Nat) (getcwd getcwd2 : Except Nat (List Char))
    (p out : List Char) (hnul : NUL ∉ p) (habs : p.head? = some SEP)
    (h : make_abs_path PATH_MAX getcwd p = Result.ok out) :
    make_abs_path PATH_MAX getcwd2 out = Result.ok out := by
  have hlen : p.length < PATH_MAX := by
    by_contra hge
    cases p with
    | nil => simp at habs
    | cons a r =>
      simp only [List.head?_cons, Option.some.injEq] at habs
      subst habs
      have h0 : cget (SEP :: r) 0 = SEP := rfl
      unfold make_abs_path at h
      rw [if_neg (by rw [h0]; exact sep_ne_nul), if_pos h0,
        if_pos (by rw [strlen_eq_length hnul]; omega)] at h
      exact absurd h (by simp)
  have hout : out = normalize p := by
    have := make_abs_path_of_head PATH_MAX getcwd p hnul habs hlen
    rw [h] at this
    simpa using this
  have hol := make_abs_path_ok_length h
  have hcan : Canonical out := by rw [hout]; exact normalize_canonical hnul
  have hon : NUL ∉ out := by
    obtain ⟨st, hst, rfl⟩ := hcan
    exact nul_not_mem_render (fun x hx => (hst x hx).1)
  have hoh : out.head? = some SEP := by rw [hout]; rfl
  rw [make_abs_path_of_head PATH_MAX getcwd2 out hon hoh hol, normalize_of_canonical hcan]

theorem make_abs_path_idempotent_witness :
    make_abs_path 4096 (Except.error 0) "/a/./b//../c/".toList = Result.ok "/a/c".toList ∧
      make_abs_path 4096 (Except.error 0) "/a/c".toList = Result.ok "/a/c".toList :=
  ⟨by decide,
    make_abs_path_idempotent 4096 (Except.error 0) (Except.error 0) "/a/./b//../c/".toList
      "/a/c".toList (by decide) (by decide) (by decide)⟩

theorem make_abs_path_long_absolute (PATH_MAX : Nat) (getcwd : Except Nat (List Char))
    (inp : List Char) (hnul : NUL ∉ inp) (habs : inp.head? = some SEP)
    (h : PATH_MAX ≤ inp.length) :
    make_abs_path PATH_MAX getcwd inp = Result.error ENAMETOOLONG := by
  cases inp with
  | nil => simp at habs
  | cons a r =>
    simp only [List.head?_cons, Option.some.injEq] at habs
    subst habs
    have h0 : cget (SEP :: r) 0 = SEP := rfl
    unfold make_abs_path
    rw [if_neg (by rw [h0]; exact sep_ne_nul), if_pos h0,
      if_pos (by rw [strlen_eq_length hnul]; omega)]

theorem make_abs_path_long_relative (PATH_MAX : Nat) (c inp : List Char)
    (hcn : NUL ∉ c) (hnul : NUL ∉ inp) (hne : inp ≠ [])
    (hrel : inp.head? ≠ some SEP) (h : PATH_MAX ≤ c.length + inp.length + 1) :
    make_abs_path PATH_MAX (Except.ok c) inp = Result.error ENAMETOOLONG := by
  cases inp with
  | nil => exact absurd rfl hne
  | cons a r =>
    have ha1 : a ≠ NUL := fun e => hnul (by simp [e])
    have ha2 : a ≠ SEP := fun e => hrel (by simp [e])
    have h0 : cget (a :: r) 0 = a := rfl
    have hs1 : strlen (c ++ [NUL]) = c.length := strlen_append_nul hcn []
    unfold make_abs_path
    rw [if_neg (by rw [h0]; exact ha1), if_neg (by rw [h0]; exact ha2)]
    simp only []
    rw [hs1, strlen_eq_length hnul, if_pos (by omega)]

theorem make_abs_path_too_long_absolute (PATH_MAX : Nat) (getcwd : Except Nat (List Char))
    (inp : List Char) (hnul : NUL ∉ inp) (habs : inp.head? = some SEP)
    (h : PATH_MAX ≤ (normalize inp).length) :
    make_abs_path PATH_MAX getcwd inp = Result.error ENAMETOOLONG := by
  refine make_abs_path_long_absolute PATH_MAX getcwd inp hnul habs ?_
  by_contra hl
  have := make_abs_path_ok_length
    (make_abs_path_of_head PATH_MAX getcwd inp hnul habs (by omega))
  omega

theorem make_abs_path_too_long_relative (PATH_MAX : Nat) (c inp : List Char)
    (hcn : NUL ∉ c) (hca : c.head? = some SEP) (hnul : NUL ∉ inp) (hne : inp ≠ [])
    (hrel : inp.head? ≠ some SEP) (h : PATH_MAX ≤ (normalize (c ++ SEP :: inp)).length) :
    make_abs_path PATH_MAX (Except.ok c) inp = Result.error ENAMETOOLONG := by
  refine make_abs_path_long_relative PATH_MAX c inp hcn hnul hne hrel ?_
  by_contra hl
  have habs : (c ++ SEP :: inp).head? = some SEP := by
    cases c with
    | nil => simp at hca
    | cons x xs => simpa using hca
  have hn : NUL ∉ c ++ SEP :: inp := by simp [hcn, hnul, sep_ne_nul.symm]
  have := make_abs_path_ok_length
    (make_abs_path_of_head PATH_MAX (Except.ok c) (c ++ SEP :: inp) hn habs
      (by simp only [List.length_append, List.length_cons]; omega))
  omega

theorem make_abs_path_anchored (PATH_MAX : Nat) (getcwd : Except Nat (List Char))
    (c inp : List Char) (hc : Canonical c) (hroot : c ≠ [SEP]) (hnul : NUL ∉ inp)
    (hne : inp ≠ []) (hrel : inp.head? ≠ some SEP) :
    make_abs_path PATH_MAX (Except.ok c) inp =
      make_abs_path PATH_MAX getcwd (c ++ SEP :: inp) := by
  have hcn : NUL ∉ c := by
    obtain ⟨st, hst, rfl⟩ := hc
    exact nul_not_mem_render (fun x hx => (hst x hx).1)
  have hca : (c ++ SEP :: inp).head? = some SEP := by
    obtain ⟨st, _, rfl⟩ := hc
    rfl
  have hn : NUL ∉ c ++ SEP :: inp := by simp [hcn, hnul, sep_ne_nul.symm]
  by_cases hlen : c.length + inp.length + 1 < PATH_MAX
  · rw [make_abs_path_relative PATH_MAX c inp hc hroot hnul hne hrel hlen,
      make_abs_path_of_head PATH_MAX getcwd _ hn hca
        (by simp only [List.length_append, List.length_cons]; omega)]
  · rw [make_abs_path_long_relative PATH_MAX c inp hcn hnul hne hrel (by omega),
      make_abs_path_long_absolute PATH_MAX getcwd _ hn hca
        (by simp only [List.length_append, List.length_cons]; omega)]

theorem make_abs_path_getcwd_error (PATH_MAX e : Nat) (inp : List Char) (hne : inp ≠ [])
    (hnul : NUL ∉ inp) (hrel : inp.head? ≠ some SEP) :
    make_abs_path PATH_MAX (Except.error e) inp = Result.error e := by
  cases inp with
  | nil => exact absurd rfl hne
  | cons a r =>
    have ha1 : a ≠ NUL := fun e => hnul (by simp [e])
    have ha2 : a ≠ SEP := fun e => hrel (by simp [e])
    have h0 : cget (a :: r) 0 = a := rfl
    unfold make_abs_path
    rw [if_neg (by rw [h0]; exact ha1), if_neg (by rw [h0]; exact ha2)]

/-- C3 (defect in the code): in the working directory `/`, which is a
canonical absolute path, the relative input `a` makes `make_abs_path` return 0
with the output `//a`, which starts with two separators. -/
theorem make_abs_path_root_cwd_double_separator :
    Canonical "/".toList ∧
      make_abs_path 4096 (Except.ok "/".toList) "a".toList = Result.ok "//a".toList :=
  ⟨⟨[], by simp, by decide⟩, by decide⟩

/-! ## The working directory `/` and the capacity of the buffer -/

theorem make_abs_path_root_cwd (PATH_MAX : Nat) (inp : List Char) (hnul : NUL ∉ inp)
    (hne : inp ≠ []) (hrel : inp.head? ≠ some SEP) (hlen : inp.length + 2 < PATH_MAX) :
    make_abs_path PATH_MAX (Except.ok [SEP]) inp =
      Result.ok (render ((segments inp).foldl stackStep [[]])) := by
  cases inp with
  | nil => exact absurd rfl hne
  | cons a r =>
    have ha1 : a ≠ NUL := fun e => hnul (by simp [e])
    have ha2 : a ≠ SEP := fun e => hrel (by simp [e])
    have h0 : cget (a :: r) 0 = a := rfl
    have hs1 : strlen ([SEP] ++ [NUL]) = 1 := by decide
    have hb : bset PATH_MAX ([SEP] ++ [NUL]) 1 SEP = some (([SEP] ++ [SEP]) ++ [NUL].drop 1) :=
      bset_append [SEP] [NUL] SEP (by
        simp only [List.length_cons, List.length_nil] at hlen ⊢; omega)
    unfold make_abs_path
    rw [if_neg (by rw [h0]; exact ha1), if_neg (by rw [h0]; exact ha2)]
    simp only []
    rw [hs1, strlen_eq_length hnul, if_neg (by omega), hb]
    simp only []
    have hinv : Inv [[]] [] (St.mk 0 (1 + 1) 1 (([SEP] ++ [SEP]) ++ [NUL].drop 1)) :=
      ⟨[], by simp [trail], by simp [trail], fun e => absurd e (by simp), fun _ => by simp [trail]⟩
    exact run_after_slash PATH_MAX (a :: r) ((a :: r).length + 1) (a :: r) (by omega) [[]]
      (St.mk 0 (1 + 1) 1 (([SEP] ++ [SEP]) ++ [NUL].drop 1)) (fuel (a :: r)) rfl hnul
      (by
        intro x hx
        rw [List.mem_singleton.mp hx]
        exact ⟨by simp, by simp⟩)
      hinv
      (by show 1 + 1 + (a :: r).length < PATH_MAX; omega)
      (by simp only [fuel]; omega)

theorem foldl_stackStep_sentinel (segs : List (List Char)) :
    ∀ acc : List (List Char),
      segs.foldl stackStep ([] :: acc) = [] :: segs.foldl stackStep acc ∨
      segs.foldl stackStep ([] :: acc) = segs.foldl stackStep acc := by
  induction segs with
  | nil => intro acc; exact Or.inl rfl
  | cons a l ih =>
    intro acc
    simp only [List.foldl_cons]
    by_cases ha : a = [DOT, DOT]
    · simp only [stackStep, ha, if_true]
      cases acc with
      | nil => exact Or.inr rfl
      | cons b t =>
        rw [List.dropLast_cons₂]
        exact ih _
    · simp only [stackStep, ha, if_false, List.cons_append]
      exact ih _

theorem render_sentinel (st : List (List Char)) :
    render ([] :: st) = [SEP] ++ render st ∨ (st = [] ∧ render ([] :: st) = render st) := by
  cases st with
  | nil => exact Or.inr ⟨rfl, by simp [render, List.intercalate]⟩
  | cons b t =>
    refine Or.inl ?_
    simp [render, List.intercalate, List.intersperse]

theorem root_cwd_output (inp : List Char) :
    ∃ pre, render ((segments inp).foldl stackStep [[]]) =
        pre ++ normalize ([SEP] ++ SEP :: inp) ∧ (pre = [] ∨ pre = [SEP]) := by
  have hn : normalize ([SEP] ++ SEP :: inp) = render ((segments inp).foldl stackStep []) := by
    rw [normalize]
    show render ((segments (SEP :: SEP :: inp)).foldl stackStep []) = _
    rw [segments_sep, segments_sep]
  rw [hn]
  rcases foldl_stackStep_sentinel (segments inp) [] with h | h
  · rw [h]
    rcases render_sentinel ((segments inp).foldl stackStep []) with h2 | ⟨_, h2⟩
    · exact ⟨[SEP], h2, Or.inr rfl⟩
    · exact ⟨[], by rw [h2]; rfl, Or.inl rfl⟩
  · rw [h]
    exact ⟨[], rfl, Or.inl rfl⟩

theorem bset_mono {cap cap2 : Nat} (hle : cap ≤ cap2) {out o : List Char} {i : Nat} {c : Char}
    (h : bset cap out i c = some o) : bset cap2 out i c = some o := by
  unfold bset at h ⊢
  split at h
  · rename_i hc
    rw [if_pos ⟨by omega, hc.2⟩]
    exact h
  · exact absurd h (by simp)

theorem run_mono {cap cap2 : Nat} (hle : cap ≤ cap2) (inp : List Char) :
    ∀ (n : Nat) (l : Label) (s : St) (out : List Char),
      run cap inp n l s = Result.ok out → run cap2 inp n l s = Result.ok out := by
  intro n
  induction n with
  | zero => intro l s out h; simp [run] at h
  | succ n ih =>
    intro l s out h
    cases l with
    | after_slash =>
      rw [run] at h ⊢
      by_cases h1 : cget inp s.ii = SEP
      · rw [if_pos h1] at h ⊢; exact ih _ _ _ h
      · rw [if_neg h1] at h ⊢
        by_cases h2 : cget inp s.ii = NUL
        · rw [if_pos h2] at h ⊢; exact ih _ _ _ h
        · rw [if_neg h2] at h ⊢
          by_cases h3 : cget inp s.ii = DOT
          · rw [if_pos h3] at h ⊢; exact ih _ _ _ h
          · rw [if_neg h3] at h ⊢; exact ih _ _ _ h
    | one_dot =>
      rw [run] at h ⊢
      by_cases h1 : cget inp s.ii = NUL
      · rw [if_pos h1] at h ⊢; exact ih _ _ _ h
      · rw [if_neg h1] at h ⊢
        by_cases h2 : cget inp s.ii = SEP
        · rw [if_pos h2] at h ⊢; exact ih _ _ _ h
        · rw [if_neg h2] at h ⊢
          by_cases h3 : cget inp s.ii = DOT
          · rw [if_pos h3] at h ⊢; exact ih _ _ _ h
          · rw [if_neg h3] at h ⊢
            cases hb : bset cap s.out s.oi DOT with
            | none => rw [hb] at h; exact absurd h (by simp)
            | some o =>
              rw [hb] at h
              rw [bset_mono hle hb]
              exact ih _ _ _ h
    | two_dot =>
      rw [run] at h ⊢
      by_cases h1 : cget inp s.ii = NUL
      · rw [if_pos h1] at h ⊢
        cases hp : pop s with
        | none => rw [hp] at h; exact absurd h (by simp)
        | some t =>
          rw [hp] at h
          exact ih _ _ _ h
      · rw [if_neg h1] at h ⊢
        by_cases h2 : cget inp s.ii = SEP
        · rw [if_pos h2] at h ⊢
          cases hp : pop s with
          | none => rw [hp] at h; exact absurd h (by simp)
          | some t =>
            rw [hp] at h
            exact ih _ _ _ h
        · rw [if_neg h2] at h ⊢
          cases hb : bset cap s.out s.oi DOT with
          | none => rw [hb] at h; exact absurd h (by simp)
          | some o =>
            rw [hb] at h
            rw [bset_mono hle hb]
            cases hb2 : bset cap o (s.oi + 1) DOT with
            | none =>
              simp only [hb2] at h
              exact absurd h (by simp)
            | some o2 =>
              simp only [hb2] at h
              simp only [bset_mono hle hb2]
              exact ih _ _ _ h
    | normal =>
      rw [run] at h ⊢
      by_cases h1 : cget inp s.ii = NUL
      · rw [if_pos h1] at h ⊢; exact ih _ _ _ h
      · rw [if_neg h1] at h ⊢
        by_cases h2 : cget inp s.ii = SEP
        · rw [if_pos h2] at h ⊢
          cases hb : bset cap s.out s.oi SEP with
          | none => rw [hb] at h; exact absurd h (by simp)
          | some o =>
            rw [hb] at h
            rw [bset_mono hle hb]
            exact ih _ _ _ h
        · rw [if_neg h2] at h ⊢
          cases hb : bset cap s.out s.oi (cget inp s.ii) with
          | none => rw [hb] at h; exact absurd h (by simp)
          | some o =>
            rw [hb] at h
            rw [bset_mono hle hb]
            exact ih _ _ _ h
    | fin =>
      rw [run] at h ⊢
      cases hb : bset cap s.out
          (if s.oi = s.lastsep + 1 ∧ s.lastsep ≠ 0 then s.lastsep else s.oi) NUL with
      | none => rw [hb] at h; exact absurd h (by simp)
      | some o =>
        rw [hb] at h
        rw [bset_mono hle hb]
        exact h

theorem make_abs_path_mono {PATH_MAX cap : Nat} (hle : PATH_MAX ≤ cap)
    (getcwd : Except Nat (List Char)) (inp out : List Char)
    (h : make_abs_path PATH_MAX getcwd inp = Result.ok out) :
    make_abs_path cap getcwd inp = Result.ok out := by
  unfold make_abs_path at h ⊢
  by_cases h1 : cget inp 0 = NUL
  · rw [if_pos h1] at h; exact absurd h (by simp)
  · rw [if_neg h1] at h ⊢
    by_cases h2 : cget inp 0 = SEP
    · rw [if_pos h2] at h ⊢
      by_cases h3 : strlen inp ≥ PATH_MAX
      · rw [if_pos h3] at h; exact absurd h (by simp)
      · rw [if_neg h3] at h
        rw [if_neg (by omega)]
        cases hb : bset PATH_MAX [] 0 SEP with
        | none => rw [hb] at h; exact absurd h (by simp)
        | some o =>
          rw [hb] at h
          rw [bset_mono hle hb]
          exact run_mono hle _ _ _ _ _ h
    · rw [if_neg h2] at h ⊢
      cases getcwd with
      | error e => exact absurd h (by simp)
      | ok c =>
        simp only [] at h ⊢
        by_cases h3 : strlen (c ++ [NUL]) + strlen inp + 1 ≥ PATH_MAX
        · rw [if_pos h3] at h; exact absurd h (by simp)
        · rw [if_neg h3] at h
          rw [if_neg (by omega)]
          cases hb : bset PATH_MAX (c ++ [NUL]) (strlen (c ++ [NUL])) SEP with
          | none => rw [hb] at h; exact absurd h (by simp)
          | some o =>
            rw [hb] at h
            rw [bset_mono hle hb]
            exact run_mono hle _ _ _ _ _ h

/-- C6: length guard, for a non-empty input.  When the lexically resolved
absolute form (of the input itself when it is absolute, of
`cwd ++ "/" ++ input` when it is relative and the working directory is `cwd`)
has length `PATH_MAX` or more, `make_abs_path` returns `ENAMETOOLONG`.  Every
output returned with 0 is shorter than `PATH_MAX` and is not cut by that
bound: a buffer of any larger capacity receives the same string.  It is the
complete resolved path: equal to it for an absolute input, and for a relative
input below a canonical working directory the resolved path preceded by
nothing, or by one more separator when the working directory is the root. -/
theorem make_abs_path_length_guard (PATH_MAX : Nat) (getcwd : Except Nat (List Char))
    (inp : List Char) (hne : inp ≠ []) (hnul : NUL ∉ inp) :
    (inp.head? = some SEP → PATH_MAX ≤ (normalize inp).length →
        make_abs_path PATH_MAX getcwd inp = Result.error ENAMETOOLONG) ∧
      (∀ c, inp.head? ≠ some SEP → getcwd = Except.ok c → c.head? = some SEP → NUL ∉ c →
        PATH_MAX ≤ (normalize (c ++ SEP :: inp)).length →
        make_abs_path PATH_MAX getcwd inp = Result.error ENAMETOOLONG) ∧
      (∀ out, make_abs_path PATH_MAX getcwd inp = Result.ok out →
        out.length < PATH_MAX ∧
        (∀ cap, PATH_MAX ≤ cap → make_abs_path cap getcwd inp = Result.ok out) ∧
        (inp.head? = some SEP → out = normalize inp) ∧
        (∀ c, inp.head? ≠ some SEP → getcwd = Except.ok c → Canonical c →
          ∃ pre, out = pre ++ normalize (c ++ SEP :: inp) ∧
            (pre = [] ∨ (c = [SEP] ∧ pre = [SEP])))) := by
  refine ⟨fun habs h => make_abs_path_too_long_absolute PATH_MAX getcwd inp hnul habs h, ?_, ?_⟩
  · intro c hrel hg hca hcn h
    subst hg
    exact make_abs_path_too_long_relative PATH_MAX c inp hcn hca hnul hne hrel h
  · intro out hout
    refine ⟨make_abs_path_ok_length hout,
      fun cap hle => make_abs_path_mono hle getcwd inp out hout, ?_, ?_⟩
    · intro habs
      have hlen : inp.length < PATH_MAX := by
        by_contra hge
        rw [make_abs_path_long_absolute PATH_MAX getcwd inp hnul habs (by omega)] at hout
        exact absurd hout (by simp)
      rw [make_abs_path_of_head PATH_MAX getcwd inp hnul habs hlen] at hout
      simpa using hout.symm
    · intro c hrel hg hc
      subst hg
      have hcn : NUL ∉ c := by
        obtain ⟨st, hst, rfl⟩ := hc
        exact nul_not_mem_render (fun x hx => (hst x hx).1)
      have hlen : c.length + inp.length + 1 < PATH_MAX := by
        by_contra hge
        rw [make_abs_path_long_relative PATH_MAX c inp hcn hnul hne hrel (by omega)] at hout
        exact absurd hout (by simp)
      by_cases hroot : c = [SEP]
      · subst hroot
        rw [make_abs_path_root_cwd PATH_MAX inp hnul hne hrel
          (by simp only [List.length_cons, List.length_nil] at hlen; omega)] at hout
        obtain ⟨pre, h1, h2⟩ := root_cwd_output inp
        refine ⟨pre, ?_, ?_⟩
        · rw [← h1]; simpa using hout.symm
        · rcases h2 with h2 | h2
          · exact Or.inl h2
          · exact Or.inr ⟨rfl, h2⟩
      · rw [make_abs_path_relative PATH_MAX c inp hc hroot hnul hne hrel hlen] at hout
        exact ⟨[], by simpa using hout.symm, Or.inl rfl⟩

theorem make_abs_path_length_guard_witness :
    make_abs_path 4 (Except.error 0) "/abcd".toList = Result.error ENAMETOOLONG ∧
      make_abs_path 4096 (Except.ok "/home".toList) "a/../b".toList =
        Result.ok "/home/b".toList ∧
      "/home/b".toList.length < 4096 ∧
      make_abs_path 5000 (Except.ok "/home".toList) "a/../b".toList =
        Result.ok "/home/b".toList :=
  ⟨(make_abs_path_length_guard 4 (Except.error 0) "/abcd".toList (by decide) (by decide)).1
      (by decide) (by decide),
    by decide,
    ((make_abs_path_length_guard 4096 (Except.ok "/home".toList) "a/../b".toList (by decide)
      (by decide)).2.2 "/home/b".toList (by decide)).1,
    ((make_abs_path_length_guard 4096 (Except.ok "/home".toList) "a/../b".toList (by decide)
      (by decide)).2.2 "/home/b".toList (by decide)).2.1 5000 (by decide)⟩

/-- C7 (defect in the code): in the working directory `c = "/"` the relative
input `r = "a"` gives `//a`, whereas the absolute string `c ++ "/" ++ r`
gives `/a`. -/
theorem make_abs_path_root_cwd_not_anchored :
    make_abs_path 4096 (Except.ok "/".toList) "a".toList = Result.ok "//a".toList ∧
      make_abs_path 4096 (Except.ok "/".toList) ("/".toList ++ SEP :: "a".toList) =
        Result.ok "/a".toList := by
  decide

/-! ## `mkdirs` -/

theorem strchr_from_bound (c : Char) :
    ∀ (l : List Char) (i j : Nat), strchr_from c l i = some j → i ≤ j ∧ j < i + l.length := by
  intro l
  induction l with
  | nil => intro i j h; simp [strchr_from] at h
  | cons x xs ih =>
    intro i j h
    rw [strchr_from] at h
    split at h
    · simp only [Option.some.injEq] at h
      subst h
      simp
    · split at h
      · exact absurd h (by simp)
      · have := ih (i + 1) j h
        simp only [List.length_cons]
        omega

theorem strchr_bound {s : List Char} {start j : Nat} {c : Char}
    (h : strchr s start c = some j) : start ≤ j ∧ j < s.length := by
  have := strchr_from_bound c _ _ _ h
  simp only [List.length_drop] at this
  omega

theorem take_ne_of_lt {path : List Char} {i : Nat} (h : i < path.length) :
    path.take i ≠ path := by
  intro e
  have := congrArg List.length e
  simp only [List.length_take] at this
  omega

theorem mkdirs_loop_none {σ : Type} (S : Sys σ) (path : List Char) (mode n : Nat)
    (w : World σ) :
    mkdirs_loop S path mode n none w =
      if (mkdir S path mode w).1 ≠ 0 then
        some (S.errno (mkdir S path mode w).2.sys, (mkdir S path mode w).2)
      else some (0, (mkdir S path mode w).2) := by
  cases n <;> rfl

theorem mkdirs_loop_shape {σ : Type} (S : Sys σ) (path : List Char) (mode : Nat) :
    ∀ (n : Nat) (spos : Option Nat) (w : World σ),
      (∀ i, spos = some i → i < path.length ∧ path.length ≤ n + i) →
      ∃ ret w2 pre last, mkdirs_loop S path mode n spos w = some (ret, w2) ∧
        w2.log = w.log ++ pre ++ [last] ∧ (∀ e ∈ pre, Tolerated path mode e) ∧
        (Aborting path mode last ret ∨ Final path mode last ret) ∧
        (ret ≠ 0 → S.errno w2.sys = ret) := by
  have hnone : ∀ (n : Nat) (w : World σ),
      ∃ ret w2 pre last, mkdirs_loop S path mode n none w = some (ret, w2) ∧
        w2.log = w.log ++ pre ++ [last] ∧ (∀ e ∈ pre, Tolerated path mode e) ∧
        (Aborting path mode last ret ∨ Final path mode last ret) ∧
        (ret ≠ 0 → S.errno w2.sys = ret) := by
    intro n w
    rw [mkdirs_loop_none]
    by_cases hr : (mkdir S path mode w).1 ≠ 0
    · rw [if_pos hr]
      have hr2 : (S.mkdir path mode w.sys).1 ≠ 0 := hr
      exact ⟨_, _, [], Event.mkdir path mode (S.mkdir path mode w.sys).1
        (S.errno (S.mkdir path mode w.sys).2), rfl, by simp [mkdir], by simp,
        Or.inr ⟨_, _, rfl, by simp [mkdir, hr2]⟩, fun _ => rfl⟩
    · rw [if_neg hr]
      have hr2 : ¬ (S.mkdir path mode w.sys).1 ≠ 0 := hr
      exact ⟨_, _, [], Event.mkdir path mode (S.mkdir path mode w.sys).1
        (S.errno (S.mkdir path mode w.sys).2), rfl, by simp [mkdir], by simp,
        Or.inr ⟨_, _, rfl, by simp only [hr2, if_false]⟩, fun h => absurd rfl h⟩
  intro n
  induction n with
  | zero =>
    intro spos w hs
    cases spos with
    | none => exact hnone 0 w
    | some i => have := hs i rfl; omega
  | succ n ih =>
    intro spos w hs
    cases spos with
    | none => exact hnone (n + 1) w
    | some i =>
      have hi := hs i rfl
      rw [mkdirs_loop]
      by_cases hc : (mkdir S (path.take i) mode w).1 ≠ 0 ∧
          S.errno (mkdir S (path.take i) mode w).2.sys ≠ EEXIST
      · rw [if_pos hc]
        exact ⟨_, _, [], Event.mkdir (path.take i) mode (S.mkdir (path.take i) mode w.sys).1
          (S.errno (S.mkdir (path.take i) mode w.sys).2), rfl, by simp [mkdir], by simp,
          Or.inl ⟨i, _, _, rfl, hi.1, hc.1, hc.2, rfl⟩, fun _ => rfl⟩
      · rw [if_neg hc]
        obtain ⟨ret, w2, pre, last, h1, h2, h3, h4, h5⟩ :=
          ih (strchr path (i + 1) SEP) (mkdir S (path.take i) mode w).2 (by
            intro j hj
            have := strchr_bound hj
            omega)
        refine ⟨ret, w2, Event.mkdir (path.take i) mode (S.mkdir (path.take i) mode w.sys).1
          (S.errno (S.mkdir (path.take i) mode w.sys).2) :: pre, last, h1, ?_, ?_, h4, h5⟩
        · rw [h2]; simp [mkdir]
        · intro e he
          rcases List.mem_cons.mp he with rfl | he
          · refine ⟨i, _, _, rfl, hi.1, ?_⟩
            by_contra hcon
            simp only [not_or] at hcon
            exact hc ⟨hcon.1, hcon.2⟩
          · exact h3 e he

theorem mkdirs_shape {σ : Type} (S : Sys σ) (path : List Char) (mode : Nat) (w : World σ) :
    ∃ ret w2 pre last, mkdirs S path mode w = some (ret, w2) ∧
      w2.log = w.log ++ pre ++ [last] ∧ (∀ e ∈ pre, Tolerated path mode e) ∧
      (Aborting path mode last ret ∨ Final path mode last ret) ∧
      (ret ≠ 0 → S.errno w2.sys = ret) :=
  mkdirs_loop_shape S path mode path.length (strchr path 1 SEP) w (by
    intro i hi
    have := strchr_bound hi
    omega)

theorem mkdirs_events {σ : Type} (S : Sys σ) (path : List Char) (mode : Nat) (w : World σ) :
    ∃ ret w2 mk, mkdirs S path mode w = some (ret, w2) ∧ w2.log = w.log ++ mk ∧
      (∀ e ∈ mk, isMkdir e = true) ∧ (ret ≠ 0 → S.errno w2.sys = ret) := by
  obtain ⟨ret, w2, pre, last, h1, h2, h3, h4, h5⟩ := mkdirs_shape S path mode w
  refine ⟨ret, w2, pre ++ [last], h1, by rw [h2]; simp, ?_, h5⟩
  intro e he
  rcases List.mem_append.mp he with he | he
  · obtain ⟨i, r, err, rfl, _⟩ := h3 e he
    rfl
  · rw [List.mem_singleton.mp he]
    rcases h4 with ⟨i, r, err, rfl, _⟩ | ⟨r, err, rfl, _⟩ <;> rfl

theorem mkdirs_prefix_facts {σ : Type} (S : Sys σ) (path : List Char) (mode : Nat)
    (w : World σ) :
    ∃ ret w2 evs, mkdirs S path mode w = some (ret, w2) ∧ w2.log = w.log ++ evs ∧
      (∀ k i r err, evs.get? k = some (Event.mkdir (path.take i) mode r err) →
        i < path.length → r ≠ 0 →
          (err = EEXIST → k + 1 < evs.length) ∧
          (err ≠ EEXIST → k + 1 = evs.length ∧ ret = err)) ∧
      (∀ r err, evs.getLast? = some (Event.mkdir path mode r err) → r = 0 → ret = 0) := by
  obtain ⟨ret, w2, pre, last, h1, h2, h3, h4, _⟩ := mkdirs_shape S path mode w
  refine ⟨ret, w2, pre ++ [last], h1, by rw [h2]; simp, ?_, ?_⟩
  · intro k i r err hk hi hr
    rcases Nat.lt_trichotomy k pre.length with hlt | heq | hgt
    · have hmem : Event.mkdir (path.take i) mode r err ∈ pre := by
        rw [List.get?_eq_getElem?, List.getElem?_append_left hlt] at hk
        exact List.getElem?_mem hk
      obtain ⟨i2, r2, err2, he, _, hor⟩ := h3 _ hmem
      simp only [Event.mkdir.injEq] at he
      obtain ⟨_, _, rfl, rfl⟩ := he
      have herr : err = EEXIST := by
        rcases hor with h | h
        · exact absurd h hr
        · exact h
      refine ⟨fun _ => by simp; omega, fun h => absurd herr h⟩
    · have hl : last = Event.mkdir (path.take i) mode r err := by
        rw [List.get?_eq_getElem?, List.getElem?_append_right (by omega), heq] at hk
        simpa using hk
      rcases h4 with ⟨i2, r2, err2, he, _, _, hne, hret⟩ | ⟨r2, err2, he, _⟩
      · rw [hl] at he
        simp only [Event.mkdir.injEq] at he
        obtain ⟨_, _, rfl, rfl⟩ := he
        exact ⟨fun h => absurd h hne, fun _ => ⟨by simp [heq], hret⟩⟩
      · rw [hl] at he
        simp only [Event.mkdir.injEq] at he
        exact absurd he.1 (take_ne_of_lt hi)
    · rw [List.get?_eq_getElem?, List.getElem?_eq_none (by simp; omega)] at hk
      exact absurd hk (by simp)
  · intro r err hl hr
    rw [List.getLast?_concat] at hl
    simp only [Option.some.injEq] at hl
    rcases h4 with ⟨i2, r2, err2, he, hi2, _⟩ | ⟨r2, err2, he, hret⟩
    · rw [hl] at he
      simp only [Event.mkdir.injEq] at he
      exact absurd he.1.symm (take_ne_of_lt hi2)
    · rw [hl] at he
      simp only [Event.mkdir.injEq] at he
      obtain ⟨_, _, rfl, rfl⟩ := he
      simp [hret, hr]

/-- C4, as stated, fails: in a file system where `/tmp` and `/tmp/x` exist,
`mkdirs("/tmp/x", 0777)` sees `EEXIST` on the internal prefix `/tmp` (which is
tolerated) and `EEXIST` on the final creation of `/tmp/x`, and returns
`EEXIST`, not 0. -/
theorem mkdirs_final_eexist_returned :
    mkdirs treeSys "/tmp/x".toList 511 ⟨([[], "/tmp".toList, "/tmp/x".toList], 0), []⟩ =
      some (EEXIST, ⟨([[], "/tmp".toList, "/tmp/x".toList], EEXIST),
        [Event.mkdir "/tmp".toList 511 (-1) EEXIST,
         Event.mkdir "/tmp/x".toList 511 (-1) EEXIST]⟩) ∧ EEXIST ≠ 0 := by
  decide

/-- C4, amended: when every creation of an internal prefix succeeds or fails
with `EEXIST` and the final creation of the full path fails with `EEXIST`,
`mkdirs` returns `EEXIST`: "already exists" is tolerated for the internal
prefixes only and is reported to the caller for the final directory. -/
theorem mkdirs_final_eexist {σ : Type} (S : Sys σ) (path : List Char) (mode : Nat)
    (w w2 : World σ) (ret : Nat) (evs : List Event)
    (h : mkdirs S path mode w = some (ret, w2)) (hlog : w2.log = w.log ++ evs)
    (_hpre : ∀ e ∈ evs.dropLast, Tolerated path mode e)
    (hfin : ∃ r, r ≠ 0 ∧ evs.getLast? = some (Event.mkdir path mode r EEXIST)) :
    ret = EEXIST := by
  obtain ⟨ret2, w3, pre, last, h1, h2, _, h4, _⟩ := mkdirs_shape S path mode w
  rw [h] at h1
  simp only [Option.some.injEq, Prod.mk.injEq] at h1
  obtain ⟨rfl, rfl⟩ := h1
  have hevs : evs = pre ++ [last] := by
    rw [hlog, List.append_assoc] at h2
    exact List.append_cancel_left h2
  obtain ⟨r, hr, hl⟩ := hfin
  rw [hevs, List.getLast?_concat] at hl
  simp only [Option.some.injEq] at hl
  rcases h4 with ⟨i2, r2, err2, he, hi2, _⟩ | ⟨r2, err2, he, hret⟩
  · rw [hl] at he
    simp only [Event.mkdir.injEq] at he
    exact absurd he.1.symm (take_ne_of_lt hi2)
  · rw [hl] at he
    simp only [Event.mkdir.injEq] at he
    obtain ⟨_, _, rfl, rfl⟩ := he
    simp [hret, hr]

theorem mkdirs_final_eexist_witness :
    mkdirs treeSys "/tmp/x".toList 511 ⟨([[], "/tmp".toList, "/tmp/x".toList], 0), []⟩ =
      some (EEXIST, ⟨([[], "/tmp".toList, "/tmp/x".toList], EEXIST),
        [Event.mkdir "/tmp".toList 511 (-1) EEXIST,
         Event.mkdir "/tmp/x".toList 511 (-1) EEXIST]⟩) ∧ EEXIST = EEXIST :=
  ⟨by decide,
    mkdirs_final_eexist treeSys "/tmp/x".toList 511
      ⟨([[], "/tmp".toList, "/tmp/x".toList], 0), []⟩
      ⟨([[], "/tmp".toList, "/tmp/x".toList], EEXIST),
        [Event.mkdir "/tmp".toList 511 (-1) EEXIST,
         Event.mkdir "/tmp/x".toList 511 (-1) EEXIST]⟩
      EEXIST
      [Event.mkdir "/tmp".toList 511 (-1) EEXIST, Event.mkdir "/tmp/x".toList 511 (-1) EEXIST]
      (by decide) (by decide)
      (by
        intro e he
        have he2 : e = Event.mkdir "/tmp".toList 511 (-1) EEXIST := by simpa using he
        exact ⟨4, -1, EEXIST, by rw [he2]; decide, by decide, Or.inr rfl⟩)
      ⟨-1, by decide, by decide⟩⟩

/-! ## `vaopen` -/

theorem rindex_from_absent (c : Char) :
    ∀ (l : List Char) (i : Nat) (acc : Option Nat), c ∉ l → rindex_from c l i acc = acc := by
  intro l
  induction l with
  | nil => intro i acc _; rfl
  | cons x xs ih =>
    intro i acc h
    have hx : x ≠ c := fun e => h (by simp [e])
    have hxs : c ∉ xs := fun e => h (by simp [e])
    rw [rindex_from]
    by_cases hn : x = NUL
    · rw [if_pos hn]
    · rw [if_neg hn, if_neg hx]; exact ih _ _ hxs

theorem rindex_from_last (post : List Char) (hpost : SEP ∉ post) :
    ∀ (pre : List Char) (i : Nat) (acc : Option Nat), NUL ∉ pre →
      rindex_from SEP (pre ++ SEP :: post) i acc = some (i + pre.length) := by
  intro pre
  induction pre with
  | nil =>
    intro i acc _
    simp only [List.nil_append, List.length_nil, Nat.add_zero]
    rw [rindex_from, if_neg sep_ne_nul, if_pos rfl]
    exact rindex_from_absent SEP post _ _ hpost
  | cons x xs ih =>
    intro i acc h
    have hx : x ≠ NUL := fun e => h (by simp [e])
    have hxs : NUL ∉ xs := fun e => h (by simp [e])
    simp only [List.cons_append, List.length_cons]
    rw [rindex_from, if_neg hx, ih (i + 1) _ hxs]
    congr 1
    omega

theorem rindex_absent {path : List Char} (h : SEP ∉ path) : rindex path SEP = none :=
  rindex_from_absent SEP path 0 none h

theorem rindex_last {pre post : List Char} (hpre : NUL ∉ pre) (hpost : SEP ∉ post) :
    rindex (pre ++ SEP :: post) SEP = some pre.length := by
  rw [rindex, rindex_from_last post hpost pre 0 none hpre]
  simp

/-- C10: for a rendered path shorter than `PATH_MAX`, when the first `open`
succeeds, or fails with an error other than `ENOENT`, or the flags lack
`O_CREAT`, or the path has no separator, `vaopen` makes exactly one call, that
`open`, and hands its outcome back: 0 with the descriptor in `*res`, or the
`errno` of the `open` with `*res` untouched. -/
theorem vaopen_single_open {σ : Type} (S : Sys σ) (PATH_MAX : Nat) (res : Option Int)
    (flags : Nat) (path : List Char) (w : World σ) (hlen : strlen path < PATH_MAX)
    (hcond : 0 ≤ (S.sys_open path flags 438 w.sys).1 ∨
      S.errno (S.sys_open path flags 438 w.sys).2 ≠ ENOENT ∨
      Nat.land flags O_CREAT = 0 ∨ SEP ∉ path) :
    vaopen S PATH_MAX res flags path w =
      some ⟨if 0 ≤ (S.sys_open path flags 438 w.sys).1 then 0
              else S.errno (S.sys_open path flags 438 w.sys).2,
            if 0 ≤ (S.sys_open path flags 438 w.sys).1
              then some (S.sys_open path flags 438 w.sys).1 else res,
            ⟨(S.sys_open path flags 438 w.sys).2,
              w.log ++ [Event.sys_open path flags 438 (S.sys_open path flags 438 w.sys).1
                (S.errno (S.sys_open path flags 438 w.sys).2)]⟩⟩ := by
  unfold vaopen
  rw [if_neg (by omega)]
  show vaopen_again S flags path (1 + 1) false res w = _
  rw [vaopen_again]
  by_cases hfd : 0 ≤ (S.sys_open path flags 438 w.sys).1
  · have h1 : ¬ ((sys_open S path flags 438 w).1 < 0 ∧
        S.errno (sys_open S path flags 438 w).2.sys = ENOENT ∧
        Nat.land flags O_CREAT ≠ 0 ∧ false = false) := by
      intro h
      have : (S.sys_open path flags 438 w.sys).1 < 0 := h.1
      omega
    have h2 : (sys_open S path flags 438 w).1 ≥ 0 := hfd
    rw [if_neg h1, if_pos h2, if_pos hfd, if_pos hfd]
    rfl
  · have h2 : ¬ (sys_open S path flags 438 w).1 ≥ 0 := hfd
    rw [if_neg hfd, if_neg hfd]
    by_cases h1 : (sys_open S path flags 438 w).1 < 0 ∧
        S.errno (sys_open S path flags 438 w).2.sys = ENOENT ∧
        Nat.land flags O_CREAT ≠ 0 ∧ false = false
    · rw [if_pos h1]
      have hsep : SEP ∉ path := by
        rcases hcond with h | h | h | h
        · exact absurd h hfd
        · exact absurd h1.2.1 h
        · exact absurd h h1.2.2.1
        · exact h
      rw [rindex_absent hsep]
      rfl
    · rw [if_neg h1, if_neg h2]
      rfl

theorem vaopen_single_open_witness :
    strlen "/f".toList < 4096 ∧
      vaopen treeSys 4096 none 65 "/f".toList ⟨([[]], 0), []⟩ =
        some ⟨0, some 3, ⟨([[]], 0), [Event.sys_open "/f".toList 65 438 3 0]⟩⟩ :=
  ⟨by decide,
    (vaopen_single_open treeSys 4096 none 65 "/f".toList ⟨([[]], 0), []⟩ (by decide)
      (Or.inl (by decide))).trans (by decide)⟩

theorem countP_eq_zero_of_mkdir {mk : List Event} (h : ∀ e ∈ mk, isMkdir e = true) :
    mk.countP isOpen = 0 ∧ mk.countP isMkdirs = 0 := by
  constructor
  · rw [List.countP_eq_zero]
    intro e he
    have := h e he
    cases e <;> simp_all [isMkdir, isOpen]
  · rw [List.countP_eq_zero]
    intro e he
    have := h e he
    cases e <;> simp_all [isMkdir, isMkdirs]

/-- C9: for a rendered path `pre ++ "/" ++ post` whose last separator is the
one shown, and flags containing `O_CREAT`: when the first `open` fails with
`ENOENT` and the pass of `mkdirs` on the parent `pre` returns the error
`e ≠ 0`, `vaopen` returns `e` and leaves `*res` as it was, and the calls of
`open` it made are one. -/
theorem vaopen_mkdirs_failure {σ : Type} (S : Sys σ) (PATH_MAX : Nat) (res : Option Int)
    (flags : Nat) (pre post : List Char) (w w2 : World σ) (e : Nat)
    (hlen : strlen (pre ++ SEP :: post) < PATH_MAX) (hpre : NUL ∉ pre) (hpost : SEP ∉ post)
    (hflags : Nat.land flags O_CREAT ≠ 0)
    (hfd : (S.sys_open (pre ++ SEP :: post) flags 438 w.sys).1 < 0)
    (herr : S.errno (S.sys_open (pre ++ SEP :: post) flags 438 w.sys).2 = ENOENT)
    (hmk : mkdirs S pre 511 (sys_open S (pre ++ SEP :: post) flags 438 w).2 = some (e, w2))
    (he : e ≠ 0) :
    vaopen S PATH_MAX res flags (pre ++ SEP :: post) w =
        some ⟨e, res, ⟨w2.sys, w2.log ++ [Event.mkdirs pre 511 e]⟩⟩ ∧
      ∃ evs, w2.log ++ [Event.mkdirs pre 511 e] = w.log ++ evs ∧ evs.countP isOpen = 1 := by
  obtain ⟨ret, w3, mk, h1, h2, h3, h4⟩ :=
    mkdirs_events S pre 511 (sys_open S (pre ++ SEP :: post) flags 438 w).2
  rw [hmk] at h1
  simp only [Option.some.injEq, Prod.mk.injEq] at h1
  obtain ⟨rfl, rfl⟩ := h1
  constructor
  · unfold vaopen
    rw [if_neg (by omega)]
    show vaopen_again S flags (pre ++ SEP :: post) (1 + 1) false res w = _
    have hc : (sys_open S (pre ++ SEP :: post) flags 438 w).1 < 0 ∧
        S.errno (sys_open S (pre ++ SEP :: post) flags 438 w).2.sys = ENOENT ∧
        Nat.land flags O_CREAT ≠ 0 ∧ false = false := ⟨hfd, herr, hflags, rfl⟩
    have htake : (pre ++ SEP :: post).take pre.length = pre := by simp
    rw [vaopen_again, if_pos hc, rindex_last hpre hpost]
    simp only [htake, hmk, if_neg he, h4 he]
  · refine ⟨Event.sys_open (pre ++ SEP :: post) flags 438
      (S.sys_open (pre ++ SEP :: post) flags 438 w.sys).1
      (S.errno (S.sys_open (pre ++ SEP :: post) flags 438 w.sys).2) :: mk ++
        [Event.mkdirs pre 511 e], ?_, ?_⟩
    · rw [h2]; simp [sys_open]
    · simp [List.countP_cons, List.countP_append, (countP_eq_zero_of_mkdir h3).1, isOpen]

theorem vaopen_mkdirs_failure_witness :
    mkdirs denySys "/a/b".toList 511 (sys_open denySys "/a/b/f".toList 65 438 ⟨0, []⟩).2 =
        some (13, ⟨13, [Event.sys_open "/a/b/f".toList 65 438 (-1) ENOENT,
          Event.mkdir "/a".toList 511 (-1) 13]⟩) ∧
      vaopen denySys 4096 none 65 "/a/b/f".toList ⟨0, []⟩ =
        some ⟨13, none, ⟨13, [Event.sys_open "/a/b/f".toList 65 438 (-1) ENOENT,
          Event.mkdir "/a".toList 511 (-1) 13] ++ [Event.mkdirs "/a/b".toList 511 13]⟩⟩ :=
  ⟨by decide,
    (vaopen_mkdirs_failure denySys 4096 none 65 "/a/b".toList "f".toList ⟨0, []⟩
      ⟨13, [Event.sys_open "/a/b/f".toList 65 438 (-1) ENOENT,
        Event.mkdir "/a".toList 511 (-1) 13]⟩ 13
      (by decide) (by decide) (by decide) (by decide) (by decide) (by decide) (by decide)
      (by decide)).1⟩

/-- C5: bounded retry.  Whatever the primitives do, `vaopen` returns, and
the calls `evs` it made contain at most one pass of `mkdirs` and at most two
calls of `open`; when there are two, `evs` is the first `open`, the `mkdir`
calls of the pass, the pass of `mkdirs` with return value 0, and the second
`open`, in this order. -/
theorem vaopen_bounded_retry {σ : Type} (S : Sys σ) (PATH_MAX : Nat) (res : Option Int)
    (flags : Nat) (path : List Char) (w : World σ) :
    ∃ o evs, vaopen S PATH_MAX res flags path w = some o ∧ o.world.log = w.log ++ evs ∧
      evs.countP isMkdirs ≤ 1 ∧ evs.countP isOpen ≤ 2 ∧
      (evs.countP isOpen = 2 → ∃ a mk p b, evs = a :: mk ++ [Event.mkdirs p 511 0, b] ∧
        isOpen a = true ∧ isOpen b = true ∧ ∀ e ∈ mk, isMkdir e = true) := by
  by_cases hlen : strlen path ≥ PATH_MAX
  · exact ⟨⟨ENAMETOOLONG, res, w⟩, [], by simp [vaopen, hlen], by simp, by simp, by simp,
      by simp⟩
  · unfold vaopen
    rw [if_neg hlen]
    show ∃ o evs, vaopen_again S flags path (1 + 1) false res w = some o ∧ _
    rw [vaopen_again]
    have hlog1 : (sys_open S path flags 438 w).2.log = w.log ++
        [Event.sys_open path flags 438 (S.sys_open path flags 438 w.sys).1
          (S.errno (S.sys_open path flags 438 w.sys).2)] := rfl
    have hone : ∀ o : Opened σ, o.world = (sys_open S path flags 438 w).2 →
        ∃ evs, o.world.log = w.log ++ evs ∧
          evs.countP isMkdirs ≤ 1 ∧ evs.countP isOpen ≤ 2 ∧
          (evs.countP isOpen = 2 → ∃ a mk p b, evs = a :: mk ++ [Event.mkdirs p 511 0, b] ∧
            isOpen a = true ∧ isOpen b = true ∧ ∀ e ∈ mk, isMkdir e = true) := by
      intro o ho
      refine ⟨_, by rw [ho, hlog1], ?_, ?_, ?_⟩ <;> simp [isOpen, isMkdirs]
    by_cases hc : (sys_open S path flags 438 w).1 < 0 ∧
        S.errno (sys_open S path flags 438 w).2.sys = ENOENT ∧
        Nat.land flags O_CREAT ≠ 0 ∧ false = false
    · rw [if_pos hc]
      cases hri : rindex path SEP with
      | none =>
        simp only []
        obtain ⟨evs, h⟩ := hone ⟨S.errno (sys_open S path flags 438 w).2.sys, res,
          (sys_open S path flags 438 w).2⟩ rfl
        exact ⟨_, evs, rfl, h⟩
      | some rs =>
        simp only []
        obtain ⟨ret, w2, mk, h1, h2, h3, _⟩ :=
          mkdirs_events S (path.take rs) 511 (sys_open S path flags 438 w).2
        obtain ⟨hz1, hz2⟩ := countP_eq_zero_of_mkdir h3
        rw [h1]
        simp only []
        by_cases hr : ret = 0
        · subst hr
          rw [if_pos rfl, vaopen_again]
          have hc2 : ¬ ((sys_open S path flags 438
              ⟨w2.sys, w2.log ++ [Event.mkdirs (path.take rs) 511 0]⟩).1 < 0 ∧
              S.errno (sys_open S path flags 438
                ⟨w2.sys, w2.log ++ [Event.mkdirs (path.take rs) 511 0]⟩).2.sys = ENOENT ∧
              Nat.land flags O_CREAT ≠ 0 ∧ true = false) := by
            intro h; exact absurd h.2.2.2 (by simp)
          rw [if_neg hc2]
          have htwo : ∀ o : Opened σ, o.world = (sys_open S path flags 438
              ⟨w2.sys, w2.log ++ [Event.mkdirs (path.take rs) 511 0]⟩).2 →
              ∃ evs, o.world.log = w.log ++ evs ∧
                evs.countP isMkdirs ≤ 1 ∧ evs.countP isOpen ≤ 2 ∧
                (evs.countP isOpen = 2 →
                  ∃ a mk p b, evs = a :: mk ++ [Event.mkdirs p 511 0, b] ∧
                  isOpen a = true ∧ isOpen b = true ∧ ∀ e ∈ mk, isMkdir e = true) := by
            intro o ho
            refine ⟨Event.sys_open path flags 438 (S.sys_open path flags 438 w.sys).1
                (S.errno (S.sys_open path flags 438 w.sys).2) :: mk ++
                [Event.mkdirs (path.take rs) 511 0,
                  Event.sys_open path flags 438 (S.sys_open path flags 438 w2.sys).1
                    (S.errno (S.sys_open path flags 438 w2.sys).2)], ?_, ?_, ?_, ?_⟩
            · rw [ho]; simp [sys_open, h2]
            · simp [List.countP_cons, List.countP_append, hz2, isMkdirs]
            · simp [List.countP_cons, List.countP_append, hz1, isOpen]
            · intro _
              exact ⟨_, mk, _, _, rfl, rfl, rfl, h3⟩
          by_cases hfd2 : (sys_open S path flags 438
              ⟨w2.sys, w2.log ++ [Event.mkdirs (path.take rs) 511 0]⟩).1 ≥ 0
          · rw [if_pos hfd2]
            obtain ⟨evs, h⟩ := htwo ⟨0, some (sys_open S path flags 438
              ⟨w2.sys, w2.log ++ [Event.mkdirs (path.take rs) 511 0]⟩).1,
              (sys_open S path flags 438
                ⟨w2.sys, w2.log ++ [Event.mkdirs (path.take rs) 511 0]⟩).2⟩ rfl
            exact ⟨_, evs, rfl, h⟩
          · rw [if_neg hfd2]
            obtain ⟨evs, h⟩ := htwo ⟨S.errno (sys_open S path flags 438
              ⟨w2.sys, w2.log ++ [Event.mkdirs (path.take rs) 511 0]⟩).2.sys, res,
              (sys_open S path flags 438
                ⟨w2.sys, w2.log ++ [Event.mkdirs (path.take rs) 511 0]⟩).2⟩ rfl
            exact ⟨_, evs, rfl, h⟩
        · rw [if_neg hr]
          refine ⟨_, Event.sys_open path flags 438 (S.sys_open path flags 438 w.sys).1
              (S.errno (S.sys_open path flags 438 w.sys).2) :: mk ++
              [Event.mkdirs (path.take rs) 511 ret], rfl, ?_, ?_, ?_, ?_⟩
          · simp [sys_open, h2]
          · simp [List.countP_cons, List.countP_append, hz2, isMkdirs]
          · simp [List.countP_cons, List.countP_append, hz1, isOpen]
          · intro h
            simp [List.countP_cons, List.countP_append, hz1, isOpen] at h
    · rw [if_neg hc]
      by_cases hfd : (sys_open S path flags 438 w).1 ≥ 0
      · rw [if_pos hfd]
        obtain ⟨evs, h⟩ := hone ⟨0, some (sys_open S path flags 438 w).1,
          (sys_open S path flags 438 w).2⟩ rfl
        exact ⟨_, evs, rfl, h⟩
      · rw [if_neg hfd]
        obtain ⟨evs, h⟩ := hone ⟨S.errno (sys_open S path flags 438 w).2.sys, res,
          (sys_open S path flags 438 w).2⟩ rfl
        exact ⟨_, evs, rfl, h⟩

/-! ## Algebra of the normalisation -/

theorem splitSep_append (a b : List Char) :
    splitSep (a ++ SEP :: b) = splitSep a ++ splitSep b := by
  induction a with
  | nil => simp [splitSep]
  | cons x a ih =>
    by_cases hx : x = SEP
    · simp [splitSep, hx, ih]
    · cases hsp : splitSep a with
      | nil => exact absurd hsp (splitSep_ne_nil a)
      | cons y ys => simp [splitSep, hx, ih, hsp]

theorem segments_append (a b : List Char) :
    segments (a ++ SEP :: b) = segments a ++ segments b := by
  simp [segments, splitSep_append]

theorem normalize_append_sep (p : List Char) : normalize (p ++ [SEP]) = normalize p := by
  rw [normalize, normalize, segments_append_last]

theorem normalize_dot (p q : List Char) (hq : q = [] ∨ ∃ r, q = SEP :: r) :
    normalize (p ++ [SEP, DOT] ++ q) = normalize (p ++ q) := by
  rcases hq with rfl | ⟨r, rfl⟩
  · have e : p ++ [SEP, DOT] ++ [] = p ++ SEP :: [DOT] := by simp
    rw [normalize, normalize, e, segments_append, segments_dot]
    simp
  · have e : p ++ [SEP, DOT] ++ SEP :: r = p ++ SEP :: (DOT :: SEP :: r) := by simp
    rw [normalize, normalize, e, segments_append, segments_dot_sep, segments_append]

theorem normalize_dotdot (p s q : List Char) (hs0 : s ≠ []) (hs1 : SEP ∉ s)
    (hs2 : s ≠ [DOT]) (hs3 : s ≠ [DOT, DOT]) (hq : q = [] ∨ ∃ r, q = SEP :: r) :
    normalize (p ++ [SEP] ++ s ++ [SEP, DOT, DOT] ++ q) = normalize (p ++ q) := by
  have hdd : segments [DOT, DOT] = [[DOT, DOT]] :=
    segments_seg (by simp [dot_ne_sep.symm]) (by simp) (by simp)
  rcases hq with rfl | ⟨r, rfl⟩
  · have e : p ++ [SEP] ++ s ++ [SEP, DOT, DOT] ++ [] = p ++ SEP :: (s ++ SEP :: [DOT, DOT]) := by
      simp
    rw [normalize, normalize, e, segments_append, segments_seg_sep hs1 hs0 hs2, hdd]
    simp [List.foldl_append, stackStep, hs3]
  · have e : p ++ [SEP] ++ s ++ [SEP, DOT, DOT] ++ SEP :: r =
        p ++ SEP :: (s ++ SEP :: ([DOT, DOT] ++ SEP :: r)) := by simp
    have hdr : segments ([DOT, DOT] ++ SEP :: r) = [DOT, DOT] :: segments r :=
      segments_seg_sep (by simp [dot_ne_sep.symm]) (by simp) (by simp) r
    rw [normalize, normalize, e, segments_append, segments_seg_sep hs1 hs0 hs2, hdr,
      segments_append]
    simp [List.foldl_append, stackStep, hs3]

theorem foldl_stackStep_dotdots (segs : List (List Char)) (h : ∀ x ∈ segs, x = [DOT, DOT]) :
    segs.foldl stackStep [] = [] := by
  induction segs with
  | nil => rfl
  | cons a l ih =>
    have ha : a = [DOT, DOT] := h a (by simp)
    simp only [List.foldl_cons, stackStep, ha, if_true, List.dropLast_nil]
    exact ih (fun x hx => h x (List.mem_cons_of_mem _ hx))

theorem normalize_root (inp : List Char)
    (h : ∀ x ∈ splitSep inp, x = [] ∨ x = [DOT] ∨ x = [DOT, DOT]) :
    normalize inp = [SEP] := by
  have hs : ∀ x ∈ segments inp, x = [DOT, DOT] := by
    intro x hx
    have hm := mem_segments hx
    simp only [segments, List.mem_filter] at hx
    rcases h x hx.1 with e | e | e
    · exact absurd e hm.1
    · exact absurd e hm.2.1
    · exact e
  rw [normalize, foldl_stackStep_dotdots _ hs]
  rfl

theorem head?_append_of_head? {p : List Char} (q : List Char) (h : p.head? = some SEP) :
    (p ++ q).head? = some SEP := by
  cases p with
  | nil => simp at h
  | cons a r => simpa using h

theorem run_ne_error (cap : Nat) (inp : List Char) (e : Nat) :
    ∀ (n : Nat) (l : Label) (s : St), run cap inp n l s ≠ Result.error e := by
  intro n
  induction n with
  | zero => intro l s; simp [run]
  | succ n ih =>
    intro l s
    cases l with
    | after_slash =>
      rw [run]
      split
      · exact ih _ _
      · split
        · exact ih _ _
        · split
          · exact ih _ _
          · exact ih _ _
    | one_dot =>
      rw [run]
      split
      · exact ih _ _
      · split
        · exact ih _ _
        · split
          · exact ih _ _
          · split
            · simp
            · exact ih _ _
    | two_dot =>
      rw [run]
      split
      · split
        · simp
        · exact ih _ _
      · split
        · split
          · simp
          · exact ih _ _
        · split
          · simp
          · split
            · simp
            · exact ih _ _
    | normal =>
      rw [run]
      split
      · exact ih _ _
      · split
        · split
          · simp
          · exact ih _ _
        · split
          · simp
          · exact ih _ _
    | fin =>
      rw [run]
      split
      · simp
      · simp

/-! ## Further claims about `make_abs_path` -/

theorem make_abs_path_nil (PATH_MAX : Nat) (getcwd : Except Nat (List Char)) :
    make_abs_path PATH_MAX getcwd [] = Result.error EINVAL := by
  have h0 : cget [] 0 = NUL := rfl
  unfold make_abs_path
  rw [if_pos h0]

theorem make_abs_path_ne_einval (PATH_MAX : Nat) (getcwd : Except Nat (List Char))
    (a : Char) (r : List Char) (ha : a ≠ NUL)
    (h : a = SEP ∨ ∃ c, getcwd = Except.ok c) :
    make_abs_path PATH_MAX getcwd (a :: r) ≠ Result.error EINVAL := by
  have h0 : cget (a :: r) 0 = a := rfl
  have hne : ENAMETOOLONG ≠ EINVAL := by decide
  unfold make_abs_path
  rw [if_neg (by rw [h0]; exact ha)]
  by_cases hs : a = SEP
  · rw [if_pos (by rw [h0]; exact hs)]
    split
    · simp [hne]
    · split
      · simp
      · exact run_ne_error _ _ _ _ _ _
  · rw [if_neg (by rw [h0]; exact hs)]
    rcases h with h | ⟨c, rfl⟩
    · exact absurd h hs
    · simp only []
      split
      · simp [hne]
      · split
        · simp
        · exact run_ne_error _ _ _ _ _ _

/-- C12: on the empty input `make_abs_path` returns `EINVAL` whatever the
working-directory lookup would give, and on an input that is absolute or whose
working-directory lookup succeeds it returns `EINVAL` exactly when the input
is empty. -/
theorem make_abs_path_einval_iff_empty (PATH_MAX : Nat) (getcwd : Except Nat (List Char))
    (inp : List Char) (hnul : NUL ∉ inp) :
    (inp = [] → ∀ g, make_abs_path PATH_MAX g inp = Result.error EINVAL) ∧
      ((inp.head? = some SEP ∨ ∃ c, getcwd = Except.ok c) →
        (make_abs_path PATH_MAX getcwd inp = Result.error EINVAL ↔ inp = [])) := by
  constructor
  · intro h g
    subst h
    exact make_abs_path_nil PATH_MAX g
  · intro h
    constructor
    · intro he
      cases inp with
      | nil => rfl
      | cons a r =>
        exfalso
        have ha : a ≠ NUL := fun e => hnul (by simp [e])
        refine make_abs_path_ne_einval PATH_MAX getcwd a r ha ?_ he
        rcases h with h | h
        · exact Or.inl (by simpa using h)
        · exact Or.inr h
    · intro he
      subst he
      exact make_abs_path_nil PATH_MAX getcwd

theorem make_abs_path_einval_iff_empty_witness :
    (make_abs_path 4096 (Except.error 13) [] = Result.error EINVAL) ∧
      (make_abs_path 4096 (Except.ok "/home".toList) "a".toList = Result.error EINVAL ↔
        "a".toList = []) :=
  ⟨(make_abs_path_einval_iff_empty 4096 (Except.error 13) [] (by decide)).1 rfl
      (Except.error 13),
    (make_abs_path_einval_iff_empty 4096 (Except.ok "/home".toList) "a".toList (by decide)).2
      (Or.inr ⟨_, rfl⟩)⟩

/-- C13: dot-dot collapse.  For an absolute `p`, a segment name `s` (non-empty,
without separator, neither `.` nor `..`) and a `q` that is empty or starts with
the separator, `make_abs_path` gives the same result on
`p ++ "/" ++ s ++ "/.." ++ q` as on `p ++ q` when both are shorter than
`PATH_MAX`. -/
theorem make_abs_path_dotdot_collapse (PATH_MAX : Nat) (g1 g2 : Except Nat (List Char))
    (p s q : List Char) (hp : p.head? = some SEP) (hpn : NUL ∉ p)
    (hs0 : s ≠ []) (hs1 : SEP ∉ s) (hs2 : s ≠ [DOT]) (hs3 : s ≠ [DOT, DOT]) (hsn : NUL ∉ s)
    (hq : q = [] ∨ q.head? = some SEP) (hqn : NUL ∉ q)
    (hl1 : (p ++ [SEP] ++ s ++ [SEP, DOT, DOT] ++ q).length < PATH_MAX)
    (hl2 : (p ++ q).length < PATH_MAX) :
    make_abs_path PATH_MAX g1 (p ++ [SEP] ++ s ++ [SEP, DOT, DOT] ++ q) =
      make_abs_path PATH_MAX g2 (p ++ q) := by
  have hq2 : q = [] ∨ ∃ r, q = SEP :: r := by
    rcases hq with h | h
    · exact Or.inl h
    · cases q with
      | nil => exact Or.inl rfl
      | cons a r => exact Or.inr ⟨r, by simp at h; rw [h]⟩
  have hn1 : NUL ∉ p ++ [SEP] ++ s ++ [SEP, DOT, DOT] ++ q := by
    simp [hpn, hsn, hqn, sep_ne_nul.symm, dot_ne_nul.symm]
  have hn2 : NUL ∉ p ++ q := by simp [hpn, hqn]
  have hh1 : (p ++ [SEP] ++ s ++ [SEP, DOT, DOT] ++ q).head? = some SEP := by
    simp only [List.append_assoc]
    exact head?_append_of_head? _ hp
  rw [make_abs_path_of_head PATH_MAX g1 _ hn1 hh1 hl1,
    make_abs_path_of_head PATH_MAX g2 _ hn2 (head?_append_of_head? q hp) hl2,
    normalize_dotdot p s q hs0 hs1 hs2 hs3 hq2]

theorem make_abs_path_dotdot_collapse_witness :
    make_abs_path 4096 (Except.error 0) "/a/b/../c".toList = Result.ok "/a/c".toList :=
  (make_abs_path_dotdot_collapse 4096 (Except.error 0) (Except.error 0) "/a".toList "b".toList
    "/c".toList (by decide) (by decide) (by decide) (by decide) (by decide) (by decide)
    (by decide) (Or.inr (by decide)) (by decide) (by decide) (by decide)).trans (by decide)

theorem make_abs_path_dotdot_at_root (PATH_MAX : Nat) (h : 4 < PATH_MAX) :
    make_abs_path PATH_MAX (Except.ok [SEP]) [DOT, DOT] = Result.ok [SEP] := by
  have h0 : cget [DOT, DOT] 0 = DOT := rfl
  have hs1 : strlen ([SEP] ++ [NUL]) = 1 := by decide
  have hs2 : strlen [DOT, DOT] = 2 := by decide
  have hb : bset PATH_MAX ([SEP] ++ [NUL]) 1 SEP = some [SEP, SEP] := by
    have h1 : 1 < PATH_MAX ∧ 1 ≤ ([SEP] ++ [NUL]).length := ⟨by omega, by decide⟩
    unfold bset
    rw [if_pos h1]
    rfl
  have hb2 : bset PATH_MAX [SEP, SEP] 1 NUL = some [SEP, NUL] := by
    have h1 : 1 < PATH_MAX ∧ 1 ≤ [SEP, SEP].length := ⟨by omega, by decide⟩
    unfold bset
    rw [if_pos h1]
    rfl
  have hpop : pop (St.mk 2 2 1 [SEP, SEP]) = some (St.mk 2 1 0 [SEP, SEP]) := by decide
  unfold make_abs_path
  rw [if_neg (by rw [h0]; exact dot_ne_nul), if_neg (by rw [h0]; exact dot_ne_sep)]
  simp only []
  rw [hs1, hs2, if_neg (by omega), hb]
  simp only []
  show run PATH_MAX [DOT, DOT] (7 + 1) Label.after_slash (St.mk 0 2 1 [SEP, SEP]) = _
  rw [step_slash_dot PATH_MAX [DOT, DOT] 7 (St.mk 0 2 1 [SEP, SEP]) rfl]
  show run PATH_MAX [DOT, DOT] (6 + 1) Label.one_dot (St.mk 1 2 1 [SEP, SEP]) = _
  rw [step_one_dot PATH_MAX [DOT, DOT] 6 (St.mk 1 2 1 [SEP, SEP]) rfl]
  show run PATH_MAX [DOT, DOT] (5 + 1) Label.two_dot (St.mk 2 2 1 [SEP, SEP]) = _
  rw [step_two_nul PATH_MAX [DOT, DOT] 5 (St.mk 2 2 1 [SEP, SEP]) (St.mk 2 1 0 [SEP, SEP])
    rfl hpop]
  show run PATH_MAX [DOT, DOT] (4 + 1) Label.fin (St.mk 2 1 0 [SEP, SEP]) = _
  rw [run]
  have hc : ¬ ((St.mk 2 1 0 [SEP, SEP]).oi = (St.mk 2 1 0 [SEP, SEP]).lastsep + 1 ∧
      (St.mk 2 1 0 [SEP, SEP]).lastsep ≠ 0) := by decide
  rw [if_neg hc]
  show (match bset PATH_MAX [SEP, SEP] 1 NUL with
    | none => Result.undef
    | some o => Result.ok (cstr o)) = _
  rw [hb2]
  decide

/-- C14: root clamp.  An absolute input shorter than `PATH_MAX` whose
segments between separators are all empty, `.` or `..` makes `make_abs_path`
return 0 with the output `/`; and so does the relative input `..` in the
working directory `/` (the buffer must hold `/` + `/` + `..`, so
`PATH_MAX > 4`). -/
theorem make_abs_path_root_clamp (PATH_MAX : Nat) (getcwd : Except Nat (List Char))
    (inp : List Char) (hnul : NUL ∉ inp) (habs : inp.head? = some SEP)
    (hlen : inp.length < PATH_MAX)
    (hsegs : ∀ x ∈ splitSep inp, x = [] ∨ x = [DOT] ∨ x = [DOT, DOT]) :
    make_abs_path PATH_MAX getcwd inp = Result.ok [SEP] ∧
      (4 < PATH_MAX →
        make_abs_path PATH_MAX (Except.ok [SEP]) [DOT, DOT] = Result.ok [SEP]) := by
  refine ⟨?_, make_abs_path_dotdot_at_root PATH_MAX⟩
  rw [make_abs_path_of_head PATH_MAX getcwd inp hnul habs hlen, normalize_root inp hsegs]

theorem make_abs_path_root_clamp_witness :
    make_abs_path 4096 (Except.error 0) "/../.././/..".toList = Result.ok "/".toList ∧
      (4 < 4096 →
        make_abs_path 4096 (Except.ok "/".toList) "..".toList = Result.ok "/".toList) :=
  make_abs_path_root_clamp 4096 (Except.error 0) "/../.././/..".toList (by decide) (by decide)
    (by decide) (by decide)

/-- C15: no false dot-segment match.  Every canonical absolute path shorter
than `PATH_MAX` (the root, or segments that are non-empty, free of separators
and different from `.` and `..`, joined by single separators after one leading
separator) is returned unchanged. -/
theorem make_abs_path_canonical_fixed (PATH_MAX : Nat) (getcwd : Except Nat (List Char))
    (p : List Char) (hc : Canonical p) (hlen : p.length < PATH_MAX) :
    make_abs_path PATH_MAX getcwd p = Result.ok p := by
  have hn : NUL ∉ p := by
    obtain ⟨st, hst, rfl⟩ := hc
    exact nul_not_mem_render (fun x hx => (hst x hx).1)
  have hh : p.head? = some SEP := by
    obtain ⟨st, _, rfl⟩ := hc
    rfl
  rw [make_abs_path_of_head PATH_MAX getcwd p hn hh hlen, normalize_of_canonical hc]

theorem make_abs_path_canonical_fixed_witness :
    make_abs_path 4096 (Except.error 0) "/a/..b/c".toList = Result.ok "/a/..b/c".toList :=
  make_abs_path_canonical_fixed 4096 (Except.error 0) "/a/..b/c".toList
    ⟨["a".toList, "..b".toList, "c".toList], by
      intro x hx
      simp only [List.mem_cons, List.mem_singleton, List.not_mem_nil, or_false] at hx
      rcases hx with rfl | rfl | rfl <;> (unfold CanonSeg GoodSeg; decide), by decide⟩
    (by decide)

/-- C16: trailing-separator normalisation.  For an absolute `p`, when `p` and
`p ++ "/"` are both shorter than `PATH_MAX`, `make_abs_path` gives the same
result on `p ++ "/"` as on `p`. -/
theorem make_abs_path_trailing_separator (PATH_MAX : Nat) (g1 g2 : Except Nat (List Char))
    (p : List Char) (hp : p.head? = some SEP) (hpn : NUL ∉ p)
    (hl1 : p.length < PATH_MAX) (hl2 : (p ++ [SEP]).length < PATH_MAX) :
    make_abs_path PATH_MAX g1 (p ++ [SEP]) = make_abs_path PATH_MAX g2 p := by
  have hn : NUL ∉ p ++ [SEP] := by simp [hpn, sep_ne_nul.symm]
  rw [make_abs_path_of_head PATH_MAX g1 _ hn (head?_append_of_head? _ hp) hl2,
    make_abs_path_of_head PATH_MAX g2 p hpn hp hl1, normalize_append_sep]

theorem make_abs_path_trailing_separator_witness :
    make_abs_path 4096 (Except.error 0) "/a/b/".toList = Result.ok "/a/b".toList :=
  (make_abs_path_trailing_separator 4096 (Except.error 0) (Except.error 0) "/a/b".toList
    (by decide) (by decide) (by decide) (by decide)).trans (by decide)

/-- C17: dot collapse.  For an absolute `p` and a `q` that is empty or starts
with the separator, `make_abs_path` gives the same result on `p ++ "/." ++ q`
as on `p ++ q` when both are shorter than `PATH_MAX`. -/
theorem make_abs_path_dot_collapse (PATH_MAX : Nat) (g1 g2 : Except Nat (List Char))
    (p q : List Char) (hp : p.head? = some SEP) (hpn : NUL ∉ p)
    (hq : q = [] ∨ q.head? = some SEP) (hqn : NUL ∉ q)
    (hl1 : (p ++ [SEP, DOT] ++ q).length < PATH_MAX) (hl2 : (p ++ q).length < PATH_MAX) :
    make_abs_path PATH_MAX g1 (p ++ [SEP, DOT] ++ q) = make_abs_path PATH_MAX g2 (p ++ q) := by
  have hq2 : q = [] ∨ ∃ r, q = SEP :: r := by
    rcases hq with h | h
    · exact Or.inl h
    · cases q with
      | nil => exact Or.inl rfl
      | cons a r => exact Or.inr ⟨r, by simp at h; rw [h]⟩
  have hn1 : NUL ∉ p ++ [SEP, DOT] ++ q := by
    simp [hpn, hqn, sep_ne_nul.symm, dot_ne_nul.symm]
  have hn2 : NUL ∉ p ++ q := by simp [hpn, hqn]
  have hh1 : (p ++ [SEP, DOT] ++ q).head? = some SEP := by
    simp only [List.append_assoc]
    exact head?_append_of_head? _ hp
  rw [make_abs_path_of_head PATH_MAX g1 _ hn1 hh1 hl1,
    make_abs_path_of_head PATH_MAX g2 _ hn2 (head?_append_of_head? q hp) hl2,
    normalize_dot p q hq2]

theorem make_abs_path_dot_collapse_witness :
    make_abs_path 4096 (Except.error 0) "/a/./b/./c".toList = Result.ok "/a/b/c".toList :=
  (make_abs_path_dot_collapse 4096 (Except.error 0) (Except.error 0) "/a".toList
    "/b/./c".toList (by decide) (by decide) (Or.inr (by decide)) (by decide) (by decide)
    (by decide)).trans (by decide)

/-! ## The order of the chain -/

theorem strchr_from_idxs (c : Char) :
    ∀ (l : List Char) (i : Nat), NUL ∉ l →
      (strchr_from c l i = none ∧ idxs c l i = []) ∨
      (∃ j, strchr_from c l i = some j ∧ i ≤ j ∧ j < i + l.length ∧
        idxs c l i = j :: idxs c (l.drop (j - i + 1)) (j + 1)) := by
  intro l
  induction l with
  | nil => intro i _; exact Or.inl ⟨rfl, rfl⟩
  | cons x xs ih =>
    intro i hn
    have hx : x ≠ NUL := fun e => hn (by simp [e])
    have hxs : NUL ∉ xs := fun e => hn (by simp [e])
    by_cases hxc : x = c
    · refine Or.inr ⟨i, by simp [strchr_from, hxc], le_refl _, by simp, ?_⟩
      simp [idxs, hxc]
    · rcases ih (i + 1) hxs with ⟨h1, h2⟩ | ⟨j, h1, h2, h3, h4⟩
      · exact Or.inl ⟨by simp [strchr_from, hxc, hx, h1], by simp [idxs, hxc, h2]⟩
      · refine Or.inr ⟨j, by simp [strchr_from, hxc, hx, h1], by omega,
          by simp only [List.length_cons]; omega, ?_⟩
        have e1 : j - i + 1 = (j - (i + 1) + 1) + 1 := by omega
        simp only [idxs, hxc, if_false, h4, e1, List.drop_succ_cons]

theorem idxs_eq_filter (c : Char) (path : List Char) :
    ∀ (l : List Char) (i : Nat), path.drop i = l →
      idxs c l i = (List.range' i l.length).filter (fun k => decide (cget path k = c)) := by
  intro l
  induction l with
  | nil => intro i _; rfl
  | cons x xs ih =>
    intro i h
    have hg : cget path i = x := cget_of_drop_cons h
    have hd : path.drop (i + 1) = xs := drop_succ_of_drop_cons h
    simp only [List.length_cons, List.range'_succ, List.filter_cons, hg, idxs]
    by_cases hxc : x = c
    · simp [hxc, ih (i + 1) hd]
    · simp [hxc, ih (i + 1) hd]

theorem chain_eq_idxs (path : List Char) :
    chain path = (idxs SEP (path.drop 1) 1).map (fun i => path.take i) ++ [path] := by
  rw [chain, idxs_eq_filter SEP path (path.drop 1) 1 rfl, List.length_drop]

theorem mkdirs_loop_chain {σ : Type} (S : Sys σ) (path : List Char) (mode : Nat)
    (hnul : NUL ∉ path) :
    ∀ (n start : Nat) (w : World σ), path.length ≤ n + start →
      ∃ ret w2 evs, mkdirs_loop S path mode n (strchr path start SEP) w = some (ret, w2) ∧
        w2.log = w.log ++ evs ∧
        ((∀ e ∈ evs, okOrExists e) →
          evs.map callOf =
            (idxs SEP (path.drop start) start).map (fun j => (path.take j, mode)) ++
              [(path, mode)]) := by
  have hfinal : ∀ (n : Nat) (w : World σ),
      ∃ ret w2 evs, mkdirs_loop S path mode n none w = some (ret, w2) ∧
        w2.log = w.log ++ evs ∧ evs.map callOf = [(path, mode)] := by
    intro n w
    rw [mkdirs_loop_none]
    by_cases hr : (mkdir S path mode w).1 ≠ 0
    · rw [if_pos hr]
      exact ⟨_, _, [Event.mkdir path mode (S.mkdir path mode w.sys).1
        (S.errno (S.mkdir path mode w.sys).2)], rfl, rfl, rfl⟩
    · rw [if_neg hr]
      exact ⟨_, _, [Event.mkdir path mode (S.mkdir path mode w.sys).1
        (S.errno (S.mkdir path mode w.sys).2)], rfl, rfl, rfl⟩
  intro n
  induction n with
  | zero =>
    intro start w hf
    have hdn : NUL ∉ path.drop start := fun e => hnul (List.mem_of_mem_drop e)
    rcases strchr_from_idxs SEP (path.drop start) start hdn with
      ⟨h1, h2⟩ | ⟨j, _, _, h3, _⟩
    · have hs : strchr path start SEP = none := h1
      rw [hs, h2]
      obtain ⟨ret, w2, evs, e1, e2, e3⟩ := hfinal 0 w
      exact ⟨ret, w2, evs, e1, e2, fun _ => by simpa using e3⟩
    · simp only [List.length_drop] at h3
      omega
  | succ n ih =>
    intro start w hf
    have hdn : NUL ∉ path.drop start := fun e => hnul (List.mem_of_mem_drop e)
    rcases strchr_from_idxs SEP (path.drop start) start hdn with
      ⟨h1, h2⟩ | ⟨j, h1, h2, h3, h4⟩
    · have hs : strchr path start SEP = none := h1
      rw [hs, h2]
      obtain ⟨ret, w2, evs, e1, e2, e3⟩ := hfinal (n + 1) w
      exact ⟨ret, w2, evs, e1, e2, fun _ => by simpa using e3⟩
    · have hs : strchr path start SEP = some j := h1
      simp only [List.length_drop] at h3
      have hdd : (path.drop start).drop (j - start + 1) = path.drop (j + 1) := by
        rw [List.drop_drop]
        congr 1
        omega
      rw [hs, h4, hdd, mkdirs_loop]
      by_cases hc : (mkdir S (path.take j) mode w).1 ≠ 0 ∧
          S.errno (mkdir S (path.take j) mode w).2.sys ≠ EEXIST
      · rw [if_pos hc]
        refine ⟨_, _, [Event.mkdir (path.take j) mode (S.mkdir (path.take j) mode w.sys).1
          (S.errno (S.mkdir (path.take j) mode w.sys).2)], rfl, rfl, ?_⟩
        intro hall
        exfalso
        have := hall _ (List.mem_singleton.mpr rfl)
        rcases this with h | h
        · exact hc.1 h
        · exact hc.2 h
      · rw [if_neg hc]
        obtain ⟨ret, w2, evs, e1, e2, e3⟩ :=
          ih (j + 1) (mkdir S (path.take j) mode w).2 (by omega)
        refine ⟨ret, w2, Event.mkdir (path.take j) mode (S.mkdir (path.take j) mode w.sys).1
          (S.errno (S.mkdir (path.take j) mode w.sys).2) :: evs, e1, ?_, ?_⟩
        · rw [e2]; simp [mkdir]
        · intro hall
          have := e3 (fun e he => hall e (List.mem_cons_of_mem _ he))
          simp only [List.map_cons, List.cons_append, this]
          rfl

/-- C11: chain order.  `mkdirs` returns, the calls it makes are calls of
`mkdir`, and when every one of them succeeds or reports `EEXIST` their
arguments are, in order, `path[0..i)` for the indices `i ≥ 1` with
`path[i] = '/'` in increasing order, then the full path, each with the given
mode (`chain path`). -/
theorem mkdirs_chain_order {σ : Type} (S : Sys σ) (path : List Char) (mode : Nat)
    (w : World σ) (hnul : NUL ∉ path) :
    ∃ ret w2 evs, mkdirs S path mode w = some (ret, w2) ∧ w2.log = w.log ++ evs ∧
      (∀ e ∈ evs, isMkdir e = true) ∧
      ((∀ e ∈ evs, okOrExists e) → evs.map callOf = (chain path).map (fun p => (p, mode))) := by
  obtain ⟨ret, w2, evs, h1, h2, h3⟩ :=
    mkdirs_loop_chain S path mode hnul path.length 1 w (by omega)
  obtain ⟨ret2, w3, mk, k1, k2, k3, _⟩ := mkdirs_events S path mode w
  have h1b : mkdirs S path mode w = some (ret, w2) := h1
  rw [h1b] at k1
  simp only [Option.some.injEq, Prod.mk.injEq] at k1
  obtain ⟨rfl, rfl⟩ := k1
  have hev : evs = mk := by
    rw [h2] at k2
    exact List.append_cancel_left k2
  refine ⟨ret, w2, evs, h1b, h2, by rw [hev]; exact k3, ?_⟩
  intro hall
  rw [h3 hall, chain_eq_idxs]
  simp [List.map_append, List.map_map, Function.comp_def]

theorem mkdirs_chain_order_witness :
    chain "/tmp/x/y/z".toList =
        ["/tmp".toList, "/tmp/x".toList, "/tmp/x/y".toList, "/tmp/x/y/z".toList] ∧
      (vaopen treeSys 4096 none 65 "/tmp/x/y/z/file".toList ⟨([[]], 0), []⟩).map
          (fun o => o.world.log.map callOf) =
        some [("/tmp/x/y/z/file".toList, 438), ("/tmp".toList, 511), ("/tmp/x".toList, 511),
          ("/tmp/x/y".toList, 511), ("/tmp/x/y/z".toList, 511), ("/tmp/x/y/z".toList, 511),
          ("/tmp/x/y/z/file".toList, 438)] ∧
      ∃ ret w2 evs, mkdirs treeSys "/tmp/x/y/z".toList 511 ⟨([[]], 0), []⟩ = some (ret, w2) ∧
        w2.log = [] ++ evs ∧ (∀ e ∈ evs, isMkdir e = true) ∧
        ((∀ e ∈ evs, okOrExists e) →
          evs.map callOf = (chain "/tmp/x/y/z".toList).map (fun p => (p, 511))) :=
  ⟨by decide, by decide,
    mkdirs_chain_order treeSys "/tmp/x/y/z".toList 511 ⟨([[]], 0), []⟩ (by decide)⟩

theorem chainRun_cons {mode : Nat} {p : List Char} {ts : List (List Char)}
    {evs : List Event} {ret : Nat} (hts : ts ≠ []) :
    ChainRun mode (p :: ts) evs ret ↔
      ∃ r err tl, evs = Event.mkdir p mode r err :: tl ∧
        ((r ≠ 0 ∧ err ≠ EEXIST) → tl = [] ∧ ret = err) ∧
        (¬ (r ≠ 0 ∧ err ≠ EEXIST) → ChainRun mode ts tl ret) := by
  cases ts with
  | nil => exact absurd rfl hts
  | cons q t => rw [ChainRun]

theorem mkdirs_loop_run {σ : Type} (S : Sys σ) (path : List Char) (mode : Nat)
    (hnul : NUL ∉ path) :
    ∀ (n start : Nat) (w : World σ), path.length ≤ n + start →
      ∃ ret w2 evs, mkdirs_loop S path mode n (strchr path start SEP) w = some (ret, w2) ∧
        w2.log = w.log ++ evs ∧
        ChainRun mode
          ((idxs SEP (path.drop start) start).map (fun j => path.take j) ++ [path]) evs ret := by
  have hfinal : ∀ (n : Nat) (w : World σ),
      ∃ ret w2 evs, mkdirs_loop S path mode n none w = some (ret, w2) ∧
        w2.log = w.log ++ evs ∧ ChainRun mode [path] evs ret := by
    intro n w
    rw [mkdirs_loop_none]
    by_cases hr : (mkdir S path mode w).1 ≠ 0
    · rw [if_pos hr]
      have hr2 : (S.mkdir path mode w.sys).1 ≠ 0 := hr
      exact ⟨_, _, [Event.mkdir path mode (S.mkdir path mode w.sys).1
        (S.errno (S.mkdir path mode w.sys).2)], rfl, rfl, _, _, rfl, by simp [mkdir, hr2]⟩
    · rw [if_neg hr]
      have hr2 : ¬ (S.mkdir path mode w.sys).1 ≠ 0 := hr
      exact ⟨_, _, [Event.mkdir path mode (S.mkdir path mode w.sys).1
        (S.errno (S.mkdir path mode w.sys).2)], rfl, rfl, _, _, rfl,
        by simp only [hr2, if_false]⟩
  intro n
  induction n with
  | zero =>
    intro start w hf
    have hdn : NUL ∉ path.drop start := fun e => hnul (List.mem_of_mem_drop e)
    rcases strchr_from_idxs SEP (path.drop start) start hdn with
      ⟨h1, h2⟩ | ⟨j, _, _, h3, _⟩
    · have hs : strchr path start SEP = none := h1
      rw [hs, h2]
      exact hfinal 0 w
    · simp only [List.length_drop] at h3
      omega
  | succ n ih =>
    intro start w hf
    have hdn : NUL ∉ path.drop start := fun e => hnul (List.mem_of_mem_drop e)
    rcases strchr_from_idxs SEP (path.drop start) start hdn with
      ⟨h1, h2⟩ | ⟨j, h1, h2, h3, h4⟩
    · have hs : strchr path start SEP = none := h1
      rw [hs, h2]
      exact hfinal (n + 1) w
    · have hs : strchr path start SEP = some j := h1
      simp only [List.length_drop] at h3
      have hdd : (path.drop start).drop (j - start + 1) = path.drop (j + 1) := by
        rw [List.drop_drop]
        congr 1
        omega
      rw [hs, h4, hdd, mkdirs_loop]
      simp only [List.map_cons, List.cons_append]
      by_cases hc : (mkdir S (path.take j) mode w).1 ≠ 0 ∧
          S.errno (mkdir S (path.take j) mode w).2.sys ≠ EEXIST
      · rw [if_pos hc]
        refine ⟨_, _, [Event.mkdir (path.take j) mode (S.mkdir (path.take j) mode w.sys).1
          (S.errno (S.mkdir (path.take j) mode w.sys).2)], rfl, rfl, ?_⟩
        rw [chainRun_cons (by simp)]
        exact ⟨_, _, [], rfl, fun _ => ⟨rfl, rfl⟩, fun h => absurd hc h⟩
      · rw [if_neg hc]
        obtain ⟨ret, w2, evs, e1, e2, e3⟩ :=
          ih (j + 1) (mkdir S (path.take j) mode w).2 (by omega)
        refine ⟨ret, w2, Event.mkdir (path.take j) mode (S.mkdir (path.take j) mode w.sys).1
          (S.errno (S.mkdir (path.take j) mode w.sys).2) :: evs, e1, ?_, ?_⟩
        · rw [e2]; simp [mkdir]
        · rw [chainRun_cons (by simp)]
          exact ⟨_, _, evs, rfl, fun h => absurd h hc, fun _ => e3⟩

/-- C8: for every NUL-free path, mode and behaviour of `mkdir`, `mkdirs`
returns and its calls run over the chain of the path (`ChainRun`): each
internal prefix in turn and then the full path.  After a success or a failure
with `EEXIST` on an internal prefix the very next call is `mkdir` on the next
target of the chain; a failure with any other code on an internal prefix is
the last call made and that code is the value returned; the full path comes
last and `mkdirs` returns 0 when its creation succeeds.  Read by position in
the log: a failed call on an internal prefix is followed by a call when its
`errno` is `EEXIST`, and is the last call, with its `errno` returned,
otherwise. -/
theorem mkdirs_prefix_errors {σ : Type} (S : Sys σ) (path : List Char) (mode : Nat)
    (w : World σ) (hnul : NUL ∉ path) :
    ∃ ret w2 evs, mkdirs S path mode w = some (ret, w2) ∧ w2.log = w.log ++ evs ∧
      ChainRun mode (chain path) evs ret ∧
      (∀ k i r err, evs.get? k = some (Event.mkdir (path.take i) mode r err) →
        i < path.length → r ≠ 0 →
          (err = EEXIST → k + 1 < evs.length) ∧
          (err ≠ EEXIST → k + 1 = evs.length ∧ ret = err)) ∧
      (∀ r err, evs.getLast? = some (Event.mkdir path mode r err) → r = 0 → ret = 0) := by
  obtain ⟨ret, w2, evs, h1, h2, h3⟩ := mkdirs_loop_run S path mode hnul path.length 1 w (by omega)
  obtain ⟨ret2, w3, evs2, k1, k2, k3, k4⟩ := mkdirs_prefix_facts S path mode w
  have h1b : mkdirs S path mode w = some (ret, w2) := h1
  rw [h1b] at k1
  simp only [Option.some.injEq, Prod.mk.injEq] at k1
  obtain ⟨rfl, rfl⟩ := k1
  have hev : evs2 = evs := by
    rw [h2] at k2
    exact (List.append_cancel_left k2).symm
  subst hev
  refine ⟨ret, w2, evs2, h1b, h2, ?_, k3, k4⟩
  rw [chain_eq_idxs]
  exact h3

theorem mkdirs_prefix_errors_witness :
    mkdirs treeSys "/tmp/x".toList 511 ⟨([[], "/tmp".toList], 0), []⟩ =
        some (0, ⟨(["/tmp/x".toList, [], "/tmp".toList], EEXIST),
          [Event.mkdir "/tmp".toList 511 (-1) EEXIST, Event.mkdir "/tmp/x".toList 511 0 EEXIST]⟩) ∧
      ∃ ret w2 evs,
        mkdirs treeSys "/tmp/x".toList 511 ⟨([[], "/tmp".toList], 0), []⟩ = some (ret, w2) ∧
        w2.log = [] ++ evs ∧ ChainRun 511 (chain "/tmp/x".toList) evs ret ∧
        (∀ k i r err, evs.get? k = some (Event.mkdir ("/tmp/x".toList.take i) 511 r err) →
          i < "/tmp/x".toList.length → r ≠ 0 →
            (err = EEXIST → k + 1 < evs.length) ∧
            (err ≠ EEXIST → k + 1 = evs.length ∧ ret = err)) ∧
        (∀ r err, evs.getLast? = some (Event.mkdir "/tmp/x".toList 511 r err) → r = 0 →
          ret = 0) :=
  ⟨by decide,
    mkdirs_prefix_errors treeSys "/tmp/x".toList 511 ⟨([[], "/tmp".toList], 0), []⟩ (by decide)⟩

/-! ## `vfsync` -/

theorem vaopen_rdonly {σ : Type} (S : Sys σ) (PATH_MAX : Nat) (res : Option Int)
    (path : List Char) (w : World σ) (hlen : strlen path < PATH_MAX) :
    vaopen S PATH_MAX res O_RDONLY path w =
      some ⟨if 0 ≤ (S.sys_open path O_RDONLY 438 w.sys).1 then 0
              else S.errno (S.sys_open path O_RDONLY 438 w.sys).2,
            if 0 ≤ (S.sys_open path O_RDONLY 438 w.sys).1
              then some (S.sys_open path O_RDONLY 438 w.sys).1 else res,
            (sys_open S path O_RDONLY 438 w).2⟩ := by
  unfold vaopen
  rw [if_neg (by omega)]
  show vaopen_again S O_RDONLY path (1 + 1) false res w = _
  rw [vaopen_again]
  have h1 : ¬ ((sys_open S path O_RDONLY 438 w).1 < 0 ∧
      S.errno (sys_open S path O_RDONLY 438 w).2.sys = ENOENT ∧
      Nat.land O_RDONLY O_CREAT ≠ 0 ∧ false = false) := by
    intro h
    exact h.2.2.1 (by decide)
  rw [if_neg h1]
  by_cases hfd : 0 ≤ (S.sys_open path O_RDONLY 438 w.sys).1
  · have h2 : (sys_open S path O_RDONLY 438 w).1 ≥ 0 := hfd
    rw [if_pos h2, if_pos hfd, if_pos hfd]
    rfl
  · have h2 : ¬ (sys_open S path O_RDONLY 438 w).1 ≥ 0 := hfd
    rw [if_neg h2, if_neg hfd, if_neg hfd]
    rfl

theorem vfsync_open_ok {σ : Type} (S : Sys σ) (F : FdSys σ) (PATH_MAX : Nat)
    (path : List Char) (w : World σ) (hlen : strlen path < PATH_MAX)
    (hfd : 0 ≤ (S.sys_open path O_RDONLY 438 w.sys).1) :
    vfsync S F PATH_MAX path w =
      some ⟨if (F.fsync (S.sys_open path O_RDONLY 438 w.sys).1
                (S.sys_open path O_RDONLY 438 w.sys).2).1 < 0
              then S.errno (F.fsync (S.sys_open path O_RDONLY 438 w.sys).1
                (S.sys_open path O_RDONLY 438 w.sys).2).2
              else 0,
            ⟨(F.close (S.sys_open path O_RDONLY 438 w.sys).1
                (F.fsync (S.sys_open path O_RDONLY 438 w.sys).1
                  (S.sys_open path O_RDONLY 438 w.sys).2).2).2,
              (sys_open S path O_RDONLY 438 w).2.log⟩,
            [FdEvent.fsync (S.sys_open path O_RDONLY 438 w.sys).1
                (F.fsync (S.sys_open path O_RDONLY 438 w.sys).1
                  (S.sys_open path O_RDONLY 438 w.sys).2).1
                (S.errno (F.fsync (S.sys_open path O_RDONLY 438 w.sys).1
                  (S.sys_open path O_RDONLY 438 w.sys).2).2),
             FdEvent.close (S.sys_open path O_RDONLY 438 w.sys).1
                (F.close (S.sys_open path O_RDONLY 438 w.sys).1
                  (F.fsync (S.sys_open path O_RDONLY 438 w.sys).1
                    (S.sys_open path O_RDONLY 438 w.sys).2).2).1]⟩ := by
  unfold vfsync
  rw [vaopen_rdonly S PATH_MAX none path w hlen]
  simp only [if_pos hfd, ne_eq, not_true_eq_false, if_false]
  rfl

theorem vfsync_open_fails {σ : Type} (S : Sys σ) (F : FdSys σ) (PATH_MAX : Nat)
    (path : List Char) (w : World σ) (hlen : strlen path < PATH_MAX)
    (hfd : (S.sys_open path O_RDONLY 438 w.sys).1 < 0)
    (herr : S.errno (S.sys_open path O_RDONLY 438 w.sys).2 ≠ 0) :
    vfsync S F PATH_MAX path w =
      some ⟨S.errno (S.sys_open path O_RDONLY 438 w.sys).2,
        (sys_open S path O_RDONLY 438 w).2, []⟩ := by
  have hfd2 : ¬ 0 ≤ (S.sys_open path O_RDONLY 438 w.sys).1 := by omega
  unfold vfsync
  rw [vaopen_rdonly S PATH_MAX none path w hlen]
  simp only [if_neg hfd2, ne_eq, herr, not_false_eq_true, if_true]

/-- C18, as stated, fails: when the `open` and the `fsync` succeed and the
`close` fails (returns -1), `vfsync` returns 0. -/
theorem vfsync_close_error_ignored :
    vfsync openSys closeFails 4096 "/f".toList ⟨0, []⟩ =
      some ⟨0, ⟨5, [Event.sys_open "/f".toList O_RDONLY 438 3 0]⟩,
        [FdEvent.fsync 3 0 0, FdEvent.close 3 (-1)]⟩ := by
  decide

/-- C18, amended: for a rendered path shorter than `PATH_MAX`, `vfsync`
returns the error of the `open` when the `open` fails; otherwise it returns
the error of the `fsync` when the `fsync` fails, whatever the `close` does,
and 0 when the `fsync` succeeds: the result of the `close` is not looked at. -/
theorem vfsync_result {σ : Type} (S : Sys σ) (F : FdSys σ) (PATH_MAX : Nat)
    (path : List Char) (w : World σ) (hlen : strlen path < PATH_MAX) :
    ((S.sys_open path O_RDONLY 438 w.sys).1 < 0 →
        S.errno (S.sys_open path O_RDONLY 438 w.sys).2 ≠ 0 →
        (vfsync S F PATH_MAX path w).map (fun s => s.ret) =
          some (S.errno (S.sys_open path O_RDONLY 438 w.sys).2)) ∧
      (0 ≤ (S.sys_open path O_RDONLY 438 w.sys).1 →
        (vfsync S F PATH_MAX path w).map (fun s => s.ret) =
          some (if (F.fsync (S.sys_open path O_RDONLY 438 w.sys).1
                    (S.sys_open path O_RDONLY 438 w.sys).2).1 < 0
                then S.errno (F.fsync (S.sys_open path O_RDONLY 438 w.sys).1
                    (S.sys_open path O_RDONLY 438 w.sys).2).2
                else 0)) := by
  constructor
  · intro hfd herr
    rw [vfsync_open_fails S F PATH_MAX path w hlen hfd herr]
    rfl
  · intro hfd
    rw [vfsync_open_ok S F PATH_MAX path w hlen hfd]
    rfl

theorem vfsync_result_witness :
    (vfsync openSys bothFail 4096 "/f".toList ⟨0, []⟩).map (fun s => s.ret) = some 5 ∧
      (vfsync denySys closeFails 4096 "/f".toList ⟨0, []⟩).map (fun s => s.ret) =
        some ENOENT :=
  ⟨((vfsync_result openSys bothFail 4096 "/f".toList ⟨0, []⟩ (by decide)).2
      (by decide)).trans (by decide),
    ((vfsync_result denySys closeFails 4096 "/f".toList ⟨0, []⟩ (by decide)).1
      (by decide) (by decide)).trans (by decide)⟩

theorem nibble_facts : ∀ n, n < 16 →
    hex2i (hexc.getD n NUL) = some n ∧ isHexChar (hexc.getD n NUL) = true := by
  decide

set_option maxRecDepth 100000 in
theorem byte_split : ∀ x, x < 256 →
    (Nat.lor (Nat.shiftLeft (Nat.land (Nat.shiftRight x 4) 15) 4) (Nat.land x 15)) % 256 = x := by
  decide

theorem land_fifteen_lt (y : Nat) : Nat.land y 15 < 16 := by
  have : y &&& 15 ≤ 15 := Nat.and_le_right
  show y &&& 15 < 16
  omega

theorem getD_of_drop_cons {bin : List Nat} {i x : Nat} {r : List Nat}
    (h : bin.drop i = x :: r) : bin.getD i 0 = x := by
  have h0 : (bin.drop i)[0]? = some x := by rw [h]; simp
  rw [List.getElem?_drop] at h0
  simp only [Nat.add_zero] at h0
  simp [List.getD_eq_getElem?_getD, h0]

theorem drop_succ_of_drop_cons_nat {bin : List Nat} {i x : Nat} {r : List Nat}
    (h : bin.drop i = x :: r) : bin.drop (i + 1) = r := by
  have : bin.drop (i + 1) = (bin.drop i).drop 1 := by
    rw [List.drop_drop]
  rw [this, h]; rfl

theorem isHexChar_ne_nul {c : Char} (h : isHexChar c = true) : c ≠ NUL := by
  intro e
  subst e
  exact absurd h (by decide)

theorem hex2i_of_isHexChar {c : Char} (h : isHexChar c = true) : hex2i c ≠ none := by
  simp only [isHexChar, Bool.or_eq_true, Bool.and_eq_true, decide_eq_true_eq] at h
  unfold hex2i
  rcases h with h | h
  · rw [if_pos h]; simp
  · by_cases h1 : '0' ≤ c ∧ c ≤ '9'
    · rw [if_pos h1]; simp
    · rw [if_neg h1, if_pos h]; simp

theorem ishex_of_all (str : List Char) (h : ∀ c ∈ str, isHexChar c = true) :
    ishex str = 1 := by
  induction str with
  | nil => rfl
  | cons c cs ih =>
    have hc := h c (by simp)
    have hn : c ≠ NUL := isHexChar_ne_nul hc
    have hd : ('0' ≤ c ∧ c ≤ '9') ∨ ('a' ≤ c ∧ c ≤ 'f') := by
      simpa [isHexChar] using hc
    rw [ishex, if_neg hn, if_neg (not_not.mpr hd)]
    exact ih (fun x hx => h x (List.mem_cons_of_mem _ hx))

theorem bin2hex_from_length (bin : List Nat) :
    ∀ (k i : Nat), (bin2hex_from bin k i).length = 2 * k := by
  intro k
  induction k with
  | zero => intro i; rfl
  | succ k ih =>
    intro i
    simp only [bin2hex_from, List.length_cons, ih (i + 1)]
    omega

theorem bin2hex_from_hex (bin : List Nat) :
    ∀ (k i : Nat), ∀ c ∈ bin2hex_from bin k i, isHexChar c = true := by
  intro k
  induction k with
  | zero => intro i c hc; simp [bin2hex_from] at hc
  | succ k ih =>
    intro i c hc
    simp only [bin2hex_from, List.mem_cons] at hc
    rcases hc with rfl | rfl | hc
    · exact (nibble_facts _ (land_fifteen_lt _)).2
    · exact (nibble_facts _ (land_fifteen_lt _)).2
    · exact ih (i + 1) c hc

theorem hex2bin_from_round (bin : List Nat) (hex : List Char) :
    ∀ (rest : List Nat) (i j : Nat), (∀ x ∈ rest, x < 256) → bin.drop j = rest →
      hex.drop (i * 2) = bin2hex_from bin rest.length j →
      hex2bin_from hex rest.length i = some rest := by
  intro rest
  induction rest with
  | nil => intro i j _ _ _; rfl
  | cons x r ih =>
    intro i j hb hbin hhex
    have hx : x < 256 := hb x (by simp)
    have hg : bin.getD j 0 = x := getD_of_drop_cons hbin
    simp only [List.length_cons, bin2hex_from, hg] at hhex
    have hc1 : cget hex (i * 2) = hexc.getD (Nat.land (Nat.shiftRight x 4) 15) NUL :=
      cget_of_drop_cons hhex
    have hd1 := drop_succ_of_drop_cons hhex
    have hc2 : cget hex (i * 2 + 1) = hexc.getD (Nat.land x 15) NUL := cget_of_drop_cons hd1
    have hd2 : hex.drop ((i + 1) * 2) = bin2hex_from bin r.length (j + 1) := by
      have := drop_succ_of_drop_cons hd1
      have e : (i + 1) * 2 = i * 2 + 1 + 1 := by omega
      rw [e]; exact this
    have hrec := ih (i + 1) (j + 1) (fun y hy => hb y (List.mem_cons_of_mem _ hy))
      (drop_succ_of_drop_cons_nat hbin) hd2
    simp only [List.length_cons, hex2bin_from, hc1, hc2,
      (nibble_facts _ (land_fifteen_lt (Nat.shiftRight x 4))).1,
      (nibble_facts _ (land_fifteen_lt x)).1, hrec, byte_split x hx]

/-- C20: hex round trip.  For a sequence `b` of bytes (values below 256),
`bin2hex(b, n)` with `n = b.length` writes exactly `2n` characters, all of
them hexadecimal digits `0`-`9`, `a`-`f`, so that `ishex` returns 1 on the
string and `hex2i` aborts on none of its characters, and `hex2bin` on that
string with size `n` yields exactly `b`. -/
theorem hex_round_trip (b : List Nat) (hb : ∀ x ∈ b, x < 256) :
    (bin2hex b b.length).length = 2 * b.length ∧
      (∀ c ∈ bin2hex b b.length, isHexChar c = true) ∧
      ishex (bin2hex b b.length) = 1 ∧
      (∀ c ∈ bin2hex b b.length, hex2i c ≠ none) ∧
      hex2bin (bin2hex b b.length) b.length = some b :=
  ⟨bin2hex_from_length b b.length 0,
    bin2hex_from_hex b b.length 0,
    ishex_of_all _ (bin2hex_from_hex b b.length 0),
    fun c hc => hex2i_of_isHexChar (bin2hex_from_hex b b.length 0 c hc),
    hex2bin_from_round b (bin2hex b b.length) b 0 0 hb rfl rfl⟩

theorem hex_round_trip_witness :
    bin2hex [0, 255, 171, 16] 4 = "00ffab10".toList ∧
      hex2bin (bin2hex [0, 255, 171, 16] 4) 4 = some [0, 255, 171, 16] :=
  ⟨by decide, (hex_round_trip [0, 255, 171, 16] (by decide)).2.2.2.2⟩

end Btpd
